import Mathlib

/-!
Verification development for `compile_time_regexp.hpp`.

A shallow embedding of the core pipeline of the compile-time regular
expression engine (`ctre` namespace of `compile_time_regexp.hpp`):

  pattern → normalized pattern → Thompson NFA → DFA (subset construction)
          → frozen fixed-size tables → table-driven matcher.

Modelling conventions:

* A character `C` (a C++ `char`) is modelled as a `Nat` byte value in
  `[0, 256)`.  Where the C++ code converts a `char` to a wider integer
  (sign extension of bytes ≥ 0x80 on the common signed-`char` targets,
  e.g. in `fnv32`'s `h ^= s[i]` and in `ch % AlphabetSize` where the
  modulus is a `size_t`), the conversion is modelled explicitly.
* Machine integers are `Nat` with explicit `% 2^w` at the points where
  the C++ code truncates (`uint8_t`, `uint16_t`, `uint32_t`, `size_t`).
* Pointers to `NfaState` / `DfaState` objects are modelled by the states'
  ids: within one parse/build every allocated state has a unique id, ids
  are the only state data the pointer hash functions consult, and state
  stores are keyed by id, so the translation is faithful.
* Operations whose C++ counterpart is undefined behaviour or a `throw`
  (popping an empty stack, `map::get` on a missing key, an out-of-bounds
  array write, a non-terminating range loop) return `none`; the whole
  pipeline is wrapped in `Option`.  In the engine everything runs inside
  `constexpr` evaluation, where any such UB is a hard compilation error,
  i.e. an abort of construction.
* The `AlphabetSize` template parameter is embedded at its default
  value 128 (`DefaultAlphabetSize`), which is the instantiation all the
  spec claims are about; `pre_index` only decides whether the character
  index table is stored or rebuilt on each `Match` call from the same
  formula, so `Match` is embedded once, rebuilding the table.
-/

namespace Ctre

/-! ## FNV-32 hashing (`fnv32`, `hash<char>`, `hash<uint32_t>`, `hash<vector<uint32_t>>`) -/

/-- `2^32`, the modulus of `uint32_t` arithmetic. -/
def U32 : Nat := 4294967296

/-- Value of a `char` holding byte `b` after integral conversion to
`uint32_t`: bytes ≥ 0x80 are negative on signed-`char` targets and
sign-extend (`b - 256 + 2^32`). -/
def charToU32 (b : Nat) : Nat := if b < 128 then b else U32 - 256 + b

/-- One round of `fnv32`: `h *= 16777619; h ^= s[i]` where `s[i]` is a
`char` (hence the sign extension). -/
def fnvRound (h b : Nat) : Nat := ((h * 16777619) % U32) ^^^ charToU32 b

/-- `fnv32` over a byte string (each byte a `char`). -/
def fnv32 (l : List Nat) : Nat := l.foldl fnvRound 2166136261

/-- `hash<char>`: `fnv32` of the single byte. -/
def hashChar (c : Nat) : Nat := fnv32 [c]

/-- `hash<uint32_t>`: `fnv32` of the four little-endian bytes. -/
def hashU32 (v : Nat) : Nat :=
  fnv32 [v % 256, v / 256 % 256, v / 65536 % 256, v / 16777216 % 256]

/-- One round of `hash<std::vector<uint32_t>>`: `h *= 16777619; h ^= v[i]`
(`v[i]` is a full `uint32_t`, no sign extension). -/
def fnvRoundU32 (h v : Nat) : Nat := ((h * 16777619) % U32) ^^^ v

/-- `hash<std::vector<uint32_t>>`. -/
def hashVec (l : List Nat) : Nat := l.foldl fnvRoundU32 2166136261

/-! ## `map` — the open-addressed compile-time hash table

`map<K, V, H>` is embedded with `K := Nat` (all keys in the pipeline are
bytes or 32-bit ids).  A slot is `Option (Nat × V)` (`none` = `used == false`);
the hash function of `H` is passed explicitly to each operation.
Iteration order (`begin()`/`end()`) is slot order, i.e. `toList`. -/

structure HMap (V : Type) where
  slots : List (Option (Nat × V))
  n : Nat
  deriving DecidableEq

def HMap.empty {V : Type} : HMap V := ⟨[], 0⟩

/-- `cap`, the slot-buffer capacity. -/
def HMap.cap {V : Type} (m : HMap V) : Nat := m.slots.length

/-- `size()`. -/
def HMap.size {V : Type} (m : HMap V) : Nat := m.n

/-- Iteration order of the map: used slots in buffer order. -/
def HMap.toList {V : Type} (m : HMap V) : List (Nat × V) := m.slots.filterMap id

/-- The probing loop of `getp`: scan `i = 0, 1, ...` (fuel-bounded by `cap`),
looking at slot `(base + i) % cap`, returning the value of the first used
slot whose key equals `k`.  Unused slots do not stop the scan. -/
def probeGet {V : Type} (slots : List (Option (Nat × V))) (base k : Nat) :
    Nat → Nat → Option V
  | _, 0 => none
  | i, fuel + 1 =>
    match slots.get? ((base + i) % slots.length) with
    | some (some (k', v)) =>
      if k' = k then some v else probeGet slots base k (i + 1) fuel
    | _ => probeGet slots base k (i + 1) fuel

/-- Like `probeGet` but returning the slot position together with the value
(needed to model in-place mutation through the reference `operator[]`
returns). -/
def probeGetEntry {V : Type} (slots : List (Option (Nat × V))) (base k : Nat) :
    Nat → Nat → Option (Nat × V)
  | _, 0 => none
  | i, fuel + 1 =>
    match slots.get? ((base + i) % slots.length) with
    | some (some (k', v)) =>
      if k' = k then some ((base + i) % slots.length, v)
      else probeGetEntry slots base k (i + 1) fuel
    | _ => probeGetEntry slots base k (i + 1) fuel

/-- The probing loop of `set`: position of the first slot that is unused or
holds key `k`. -/
def probeSetIdx {V : Type} (slots : List (Option (Nat × V))) (base k : Nat) :
    Nat → Nat → Option Nat
  | _, 0 => none
  | i, fuel + 1 =>
    match slots.get? ((base + i) % slots.length) with
    | some none => some ((base + i) % slots.length)
    | some (some (k', _)) =>
      if k' = k then some ((base + i) % slots.length)
      else probeSetIdx slots base k (i + 1) fuel
    | none => none

/-- `getp`: `nullptr` (`none`) when the map is empty or the key is not
found within `cap` probes. -/
def HMap.getp {V : Type} (h : Nat → Nat) (m : HMap V) (k : Nat) : Option V :=
  if m.n = 0 then none else probeGet m.slots (h k) k 0 m.slots.length

/-- `has`. -/
def HMap.has {V : Type} (h : Nat → Nat) (m : HMap V) (k : Nat) : Bool :=
  (m.getp h k).isSome

/-- `resize()`: double the capacity (at least 7) and re-insert every used
slot, in buffer order, into the first unused slot of the new buffer —
i.e. pack the entries at the front (the C++ re-insertion loop does not
re-hash). -/
def HMap.resize {V : Type} (m : HMap V) : HMap V :=
  let newCap := max (m.cap * 2) 7
  let packed := m.slots.filterMap id
  ⟨packed.map some ++ List.replicate (newCap - packed.length) none, m.n⟩

/-- `set(k, v)`.  The growth test `cap < n + 1 || cap * 0.8 < n + 1` uses a
`double`; for every capacity this table can reach (0 and 7·2^i) the
comparison is exact and equals the rational test `4·cap < 5·(n+1)`, which
is how it is embedded. -/
def HMap.set {V : Type} (h : Nat → Nat) (m : HMap V) (k : Nat) (v : V) : HMap V :=
  let m1 := if m.cap < m.n + 1 || 4 * m.cap < 5 * (m.n + 1) then m.resize else m
  match probeSetIdx m1.slots (h k) k 0 m1.slots.length with
  | none => m1
  | some p =>
    match m1.slots.get? p with
    | some none => ⟨m1.slots.set p (some (k, v)), m1.n + 1⟩
    | some (some _) => ⟨m1.slots.set p (some (k, v)), m1.n⟩
    | none => m1

/-- `m[k] = f(m[k])` through the reference returned by `operator[]`:
if the key exists the slot's value is updated in place; otherwise
`set(k, dflt)` runs first (possibly resizing) and the fresh slot is
updated. -/
def HMap.modifyV {V : Type} (h : Nat → Nat) (m : HMap V) (k : Nat) (dflt : V)
    (f : V → V) : HMap V :=
  match (if m.n = 0 then none else probeGetEntry m.slots (h k) k 0 m.slots.length) with
  | some (p, v) => ⟨m.slots.set p (some (k, f v)), m.n⟩
  | none =>
    let m1 := m.set h k dflt
    match (if m1.n = 0 then none else probeGetEntry m1.slots (h k) k 0 m1.slots.length) with
    | some (p, v) => ⟨m1.slots.set p (some (k, f v)), m1.n⟩
    | none => m1

/-- One iteration of the `pop(k)` scan: clear probe position
`(h(k) + i) % cap` if it holds key `k`, decrementing `n` (`n--` is
`size_t` arithmetic, so 0 wraps to `2^64 - 1`). -/
def popStep {V : Type} (h : Nat → Nat) (k : Nat) (acc : HMap V) (i : Nat) : HMap V :=
  match acc.slots.get? ((h k + i) % acc.slots.length) with
  | some (some (k', _)) =>
    if k' = k then
      ⟨acc.slots.set ((h k + i) % acc.slots.length) none,
       if acc.n = 0 then 18446744073709551615 else acc.n - 1⟩
    else acc
  | _ => acc

/-- `pop(k)`: scan all `cap` probe positions, clearing every used slot
with key `k` (the C++ loop has no early exit). -/
def HMap.pop {V : Type} (h : Nat → Nat) (m : HMap V) (k : Nat) : HMap V :=
  if m.n = 0 then m else (List.range m.cap).foldl (popStep h k) m

/-! ## `set` — built on `map<T, bool>` -/

structure HSet where
  m : HMap Bool
  deriving DecidableEq

def HSet.empty : HSet := ⟨HMap.empty⟩

/-- `add(v)`: `m[v] = true` (insert `false` via `operator[]` if absent,
then assign `true`). -/
def HSet.add (h : Nat → Nat) (s : HSet) (v : Nat) : HSet :=
  ⟨s.m.modifyV h v false (fun _ => true)⟩

def HSet.has (h : Nat → Nat) (s : HSet) (v : Nat) : Bool := s.m.has h v

def HSet.pop (h : Nat → Nat) (s : HSet) (v : Nat) : HSet := ⟨s.m.pop h v⟩

def HSet.size (s : HSet) : Nat := s.m.n

def HSet.toList (s : HSet) : List Nat := s.m.toList.map Prod.fst

/-- `merge(o)`: add every element of `o` in `o`'s iteration order. -/
def HSet.merge (h : Nat → Nat) (s o : HSet) : HSet :=
  o.toList.foldl (HSet.add h) s

/-! ## `unique_queue` — FIFO of `DfaState*` (modelled by state ids) -/

structure UQueue where
  elems : List Nat
  s : HSet
  deriving DecidableEq

def UQueue.empty : UQueue := ⟨[], HSet.empty⟩

/-- `empty()` consults the set's size, not the linked list. -/
def UQueue.isEmpty (q : UQueue) : Bool := q.s.size = 0

def UQueue.has (h : Nat → Nat) (q : UQueue) (v : Nat) : Bool := q.s.has h v

/-- `push(v)`: a no-op returning `false` when `s.has(v)`; otherwise append
to the list's tail, add to the set, and return `true`. -/
def UQueue.push (h : Nat → Nat) (q : UQueue) (v : Nat) : UQueue × Bool :=
  if q.s.has h v then (q, false)
  else (⟨q.elems ++ [v], q.s.add h v⟩, true)

/-- `pop()`: `throw`s (here `none`) when `empty()`; otherwise remove and
return the front element, also removing it from the set (`s.pop(v)`). -/
def UQueue.pop (h : Nat → Nat) (q : UQueue) : Option (Nat × UQueue) :=
  if q.isEmpty then none else
  match q.elems with
  | [] => none
  | v :: rest => some (v, ⟨rest, q.s.pop h v⟩)

/-! ## Helpers: `EPSILON`, operators, priorities, normalizer predicates -/

/-- `EPSILON`, byte `0x00`. -/
def EPSILON : Nat := 0

def OP_CONCAT : Nat := 38      -- '&'
def OP_UNION : Nat := 124      -- '|'
def OP_CLOSURE : Nat := 42     -- '*'
def OP_LEFT_PAIR : Nat := 40   -- '('
def OP_RIGHT_PAIR : Nat := 41  -- ')'
def OP_PLUS : Nat := 43        -- '+'
def OP_OPTIONAL : Nat := 63    -- '?'
def OP_RANGE_START : Nat := 91 -- '['
def OP_RANGE_END : Nat := 93   -- ']'
def OP_RANGE_TO : Nat := 45    -- '-'
def BACKSLASH : Nat := 92      -- '\\'

/-- `IsCalculationOperator`. -/
def IsCalculationOperator (c : Nat) : Bool :=
  c = OP_CONCAT || c = OP_UNION || c = OP_CLOSURE || c = OP_PLUS || c = OP_OPTIONAL

/-- `GetOperatorPriority`. -/
def GetOperatorPriority (op : Nat) : Nat :=
  if op = OP_CONCAT then 1
  else if op = OP_UNION then 1
  else if op = OP_CLOSURE then 2
  else if op = OP_PLUS then 2
  else if op = OP_OPTIONAL then 2
  else 0

/-- `IsRightActingOperator`. -/
def IsRightActingOperator (c : Nat) : Bool :=
  c = OP_CONCAT || c = OP_UNION || c = OP_LEFT_PAIR

/-- `IsAbleInsertConcat`. -/
def IsAbleInsertConcat (c : Nat) : Bool :=
  !(c = OP_CONCAT || c = OP_UNION || c = OP_CLOSURE || c = OP_RIGHT_PAIR ||
    c = OP_PLUS || c = OP_OPTIONAL || c = OP_RANGE_END || c = OP_RANGE_TO)

/-- `NfaParser::Normalize`: insert explicit `&` concat markers. -/
def normalize (s : List Nat) : List Nat :=
  (s.foldl (fun (acc : List Nat × Bool) c =>
    let s1 := acc.1
    let isInRange := acc.2
    let s1 :=
      if IsAbleInsertConcat c && !s1.isEmpty &&
          !IsRightActingOperator (s1.getLast!) && !isInRange
      then s1 ++ [OP_CONCAT] else s1
    let isInRange :=
      if c = OP_RANGE_START then true
      else if c = OP_RANGE_END then false
      else isInRange
    (s1 ++ [c], isInRange)) ([], false)).1

/-! ## `NfaState`, `Nfa`, `NfaParser`

An `NfaState` owns a transition table `map<C, set<NfaState*>>`; states are
stored in the parser's allocation list, where the state with id `i` sits at
index `i - 1` (`NewState` assigns `id = states.size() + 1`).  An `Nfa`
fragment is a `(start, end, size)` triple of ids. -/

structure NfaStateData where
  id : Nat
  isEnd : Bool
  transitions : HMap HSet
  deriving DecidableEq

instance : Inhabited NfaStateData := ⟨⟨0, false, HMap.empty⟩⟩

/-- `NfaState::AddTransition(c, to)`: `transitions[c].add(to)`, then clear
the accepting flag (`if (is_end) is_end = false`). -/
def NfaStateData.addTransition (d : NfaStateData) (c tgt : Nat) : NfaStateData :=
  { d with
    transitions := d.transitions.modifyV hashChar c HSet.empty (fun ps => ps.add hashU32 tgt)
    isEnd := if d.isEnd then false else d.isEnd }

/-- `NfaState::AcceptC(c)`. -/
def NfaStateData.acceptC (d : NfaStateData) (c : Nat) : Bool :=
  d.transitions.has hashChar c

structure Frag where
  start : Nat
  endId : Nat
  size : Nat
  deriving DecidableEq

/-- Parser state: the two shunting-yard stacks (head = stack top) and the
list of allocated states (index `id - 1`). -/
structure PSt where
  nfaStack : List Frag
  opStack : List Nat
  states : List NfaStateData
  deriving DecidableEq

def PSt.empty : PSt := ⟨[], [], []⟩

/-- `NfaParser::NewState`. -/
def PSt.newState (ps : PSt) (isEnd : Bool) : PSt × Nat :=
  let id := ps.states.length + 1
  ({ ps with states := ps.states ++ [⟨id, isEnd, HMap.empty⟩] }, id)

/-- Mutate the state with the given id through its pointer. -/
def PSt.addTransition (ps : PSt) (idFrom c tgt : Nat) : PSt :=
  { ps with
    states := ps.states.set (idFrom - 1)
      ((ps.states.getD (idFrom - 1) default).addTransition c tgt) }

/-- `NewNfaFromSymbol(c)`. -/
def PSt.newNfaFromSymbol (ps : PSt) (c : Nat) : PSt × Frag :=
  let (ps, s) := ps.newState false
  let (ps, e) := ps.newState true
  (ps.addTransition s c e, ⟨s, e, 2⟩)

/-- `NewNfaFromSymbols(chs)`: one edge per collected byte, in the set's
iteration order; a single `EPSILON` edge if the set is empty. -/
def PSt.newNfaFromSymbols (ps : PSt) (chs : HSet) : PSt × Frag :=
  let (ps, s) := ps.newState false
  let (ps, e) := ps.newState true
  let ps :=
    if chs.size ≠ 0 then
      chs.toList.foldl (fun ps c => ps.addTransition s c e) ps
    else ps.addTransition s EPSILON e
  (ps, ⟨s, e, 2⟩)

/-- The loop body of `NewNfaFromRanges` for one range `(lo, hi)`:
`for (auto x = start; x <= end; x++) chs.add(x);` with `char` (signed)
comparison and increment; `127 + 1` wraps to `-128`, so a range ending at
byte 127 never terminates (`none` models that). -/
def rangeChars (lo hi : Nat) (chs : HSet) : Option HSet :=
  let sval : Nat → Int := fun b => if b < 128 then (b : Int) else (b : Int) - 256
  let go : Nat → Int → HSet → Option HSet := fun fuel =>
    Nat.rec (motive := fun _ => Int → HSet → Option HSet)
      (fun _ _ => none)
      (fun _ ih x acc =>
        if x ≤ sval hi then
          ih (if x = 127 then -128 else x + 1) (acc.add hashChar (x % 256).toNat)
        else some acc)
      fuel
  go 260 (sval lo) chs

/-- `NewNfaFromRanges`. -/
def PSt.newNfaFromRanges (ps : PSt) (ranges : List (Nat × Nat)) : Option (PSt × Frag) :=
  (ranges.foldl (fun acc r => acc.bind (rangeChars r.1 r.2)) (some HSet.empty)).map
    ps.newNfaFromSymbols

/-- `NewNfaFromConcat(a, b)`: `a.end --ε--> b.start`. -/
def PSt.newNfaFromConcat (ps : PSt) (a b : Frag) : PSt × Frag :=
  (ps.addTransition a.endId EPSILON b.start, ⟨a.start, b.endId, a.size + b.size⟩)

/-- `NewNfaFromUnion(a, b)`. -/
def PSt.newNfaFromUnion (ps : PSt) (a b : Frag) : PSt × Frag :=
  let (ps, s) := ps.newState false
  let (ps, e) := ps.newState true
  let ps := ps.addTransition s EPSILON a.start
  let ps := ps.addTransition s EPSILON b.start
  let ps := ps.addTransition a.endId EPSILON e
  let ps := ps.addTransition b.endId EPSILON e
  (ps, ⟨s, e, a.size + b.size + 2⟩)

/-- `NewNfaFromClosure(a)`. -/
def PSt.newNfaFromClosure (ps : PSt) (a : Frag) : PSt × Frag :=
  let (ps, s) := ps.newState false
  let (ps, e) := ps.newState true
  let ps := ps.addTransition a.endId EPSILON a.start
  let ps := ps.addTransition s EPSILON a.start
  let ps := ps.addTransition a.endId EPSILON e
  let ps := ps.addTransition s EPSILON e
  (ps, ⟨s, e, a.size + 2⟩)

/-- `NewNfaFromPlus(a)`: `Concat(a, Closure(a))`. -/
def PSt.newNfaFromPlus (ps : PSt) (a : Frag) : PSt × Frag :=
  let (ps, p) := ps.newNfaFromClosure a
  ps.newNfaFromConcat a p

/-- `NewNfaFromOptional(a)`. -/
def PSt.newNfaFromOptional (ps : PSt) (a : Frag) : PSt × Frag :=
  let (ps, s) := ps.newState false
  let (ps, e) := ps.newState true
  let ps := ps.addTransition s EPSILON a.start
  let ps := ps.addTransition a.endId EPSILON e
  let ps := ps.addTransition s EPSILON e
  (ps, ⟨s, e, a.size + 2⟩)

/-- `NfaParser::Calc`: pop one operator and apply it to the fragment stack.
Popping a fragment off an empty stack is `std::vector::back` on an empty
vector — UB, hence `none`.  An operator with no case (e.g. `(`) is
discarded. -/
def PSt.calc (ps : PSt) : Option PSt :=
  match ps.opStack with
  | [] => some ps
  | op :: ops =>
    let ps := { ps with opStack := ops }
    if op = OP_CLOSURE then
      match ps.nfaStack with
      | a :: rest =>
        let (ps, f) := PSt.newNfaFromClosure { ps with nfaStack := rest } a
        some { ps with nfaStack := f :: ps.nfaStack }
      | [] => none
    else if op = OP_CONCAT then
      match ps.nfaStack with
      | b :: a :: rest =>
        let (ps, f) := PSt.newNfaFromConcat { ps with nfaStack := rest } a b
        some { ps with nfaStack := f :: ps.nfaStack }
      | _ => none
    else if op = OP_UNION then
      match ps.nfaStack with
      | b :: a :: rest =>
        let (ps, f) := PSt.newNfaFromUnion { ps with nfaStack := rest } a b
        some { ps with nfaStack := f :: ps.nfaStack }
      | _ => none
    else if op = OP_PLUS then
      match ps.nfaStack with
      | a :: rest =>
        let (ps, f) := PSt.newNfaFromPlus { ps with nfaStack := rest } a
        some { ps with nfaStack := f :: ps.nfaStack }
      | [] => none
    else if op = OP_OPTIONAL then
      match ps.nfaStack with
      | a :: rest =>
        let (ps, f) := PSt.newNfaFromOptional { ps with nfaStack := rest } a
        some { ps with nfaStack := f :: ps.nfaStack }
      | [] => none
    else some ps

/-- The `while (...) Calc();` loops, fuel-bounded by the operator stack
depth (each `Calc` pops one operator). -/
def calcWhile (cond : List Nat → Bool) : Nat → PSt → Option PSt
  | 0, ps => some ps
  | fuel + 1, ps =>
    if cond ps.opStack then (ps.calc).bind (calcWhile cond fuel) else some ps

/-- The character-class scanning loop of `Parse`'s `OP_RANGE_START` case:
`while (s1[i] != ']' && i < s1.size())`.  Note the index is read before the
bounds test; `std::string::operator[]` at `size()` yields `'\0'`, modelled
by `getD _ 0`.  Returns the collected `(lo, hi)` pairs and the index of the
terminating `]` (or `s1.length`). -/
def scanRanges (s1 : List Nat) : Nat → Nat → List (Nat × Nat) → Nat →
    Option (List (Nat × Nat) × Nat)
  | _, _, _, 0 => none
  | i, rangeStart, ranges, fuel + 1 =>
    if s1.getD i 0 ≠ OP_RANGE_END ∧ i < s1.length then
      let x := s1.getD i 0
      if x ≠ OP_RANGE_TO then
        if rangeStart = EPSILON then
          scanRanges s1 (i + 1) x ranges fuel
        else
          scanRanges s1 (i + 1) EPSILON (ranges ++ [(rangeStart, x)]) fuel
      else scanRanges s1 (i + 1) rangeStart ranges fuel
    else some (ranges, i)

/-- One step of `Parse`'s main `while (i < s1.size())` loop, consuming the
symbol at `i`; returns the updated index and parser state. -/
def parseStep (s1 : List Nat) (i : Nat) (ps : PSt) : Option (Nat × PSt) :=
  let x := s1.getD i 0
  let i := i + 1
  if IsCalculationOperator x then
    (calcWhile (fun ops =>
        match ops with
        | [] => false
        | top :: _ =>
          IsCalculationOperator top &&
            GetOperatorPriority x ≤ GetOperatorPriority top)
      (ps.opStack.length + 1) ps).map
      (fun ps => (i, { ps with opStack := x :: ps.opStack }))
  else if x = OP_LEFT_PAIR then
    some (i, { ps with opStack := x :: ps.opStack })
  else if x = OP_RIGHT_PAIR then
    (calcWhile (fun ops =>
        match ops with
        | [] => false
        | top :: _ => top ≠ OP_LEFT_PAIR) (ps.opStack.length + 1) ps).bind
      (fun ps =>
        match ps.opStack with
        | [] => none      -- op_stack.pop() on an empty stack: UB
        | _ :: ops => some (i, { ps with opStack := ops }))
  else if x = OP_RANGE_START then
    (scanRanges s1 i EPSILON [] (s1.length + 2)).bind
      (fun (ranges, i') =>
        (ps.newNfaFromRanges ranges).map
          (fun (ps, f) => (i', { ps with nfaStack := f :: ps.nfaStack })))
  else if x = OP_RANGE_END then
    some (i, ps)
  else if x = BACKSLASH then
    let x := s1.getD i 0
    let (ps, f) := ps.newNfaFromSymbol x
    some (i + 1, { ps with nfaStack := f :: ps.nfaStack })
  else
    let (ps, f) := ps.newNfaFromSymbol x
    some (i, { ps with nfaStack := f :: ps.nfaStack })

/-- `Parse`'s main loop, fuel-bounded (each step advances `i`). -/
def parseLoop (s1 : List Nat) : Nat → Nat → PSt → Option PSt
  | _, 0, _ => none
  | i, fuel + 1, ps =>
    if i < s1.length then
      (parseStep s1 i ps).bind (fun (i', ps') => parseLoop s1 i' fuel ps')
    else some ps

/-- `NfaParser::Parse`: normalize, pre-seed the fragment stack with an
`EPSILON` symbol fragment, run the shunting-yard loop, apply the remaining
operators, and return the fragment on top of the stack. -/
def parse (s : List Nat) : Option (PSt × Frag) :=
  let s1 := normalize s
  let (ps, f0) := PSt.empty.newNfaFromSymbol EPSILON
  let ps := { ps with nfaStack := [f0] }
  (parseLoop s1 0 (s1.length + 1) ps).bind fun ps =>
  (calcWhile (fun ops => !ops.isEmpty) (ps.opStack.length + 1) ps).bind fun ps =>
  ps.nfaStack.head?.map (fun f => (ps, f))

/-! ## `DfaState`, `Dfa`, `DfaBuilder` (subset construction) -/

structure DfaStateData where
  id : Nat
  isEnd : Bool
  no : Nat
  transitions : HMap Nat    -- character → target `DfaState` (by id)
  deriving DecidableEq

instance : Inhabited DfaStateData := ⟨⟨0, false, 0, HMap.empty⟩⟩

/-- `DfaState::AddTransition(c, to)`: `transitions[c] = to`. -/
def DfaStateData.addTransitionD (d : DfaStateData) (c tgt : Nat) : DfaStateData :=
  { d with transitions := d.transitions.modifyV hashChar c 0 (fun _ => tgt) }

/-- Dereference an `NfaState*` in the parser's allocation list
(state with id `i` lives at index `i - 1`). -/
def nstGet (nst : List NfaStateData) (id : Nat) : NfaStateData :=
  nst.getD (id - 1) default

/-- Insertion sort, ascending — the result of `std::sort` on the id
vector (ids are distinct, so the sorted permutation is unique). -/
def insertSorted (x : Nat) : List Nat → List Nat
  | [] => [x]
  | y :: ys => if x ≤ y then x :: y :: ys else y :: insertSorted x ys

def sortNat (l : List Nat) : List Nat := l.foldr insertSorted []

/-- `DfaBuilder::HashNfaStateIds`: hash of the sorted id sequence. -/
def hashNfaStateIds (N : HSet) : Nat := hashVec (sortNat N.toList)

/-- The builder's mutable state: the non-ε move cache `d`, the created
states keyed by id, and the ε-closure cache. -/
structure BSt where
  d : HMap (HMap HSet)
  states : HMap DfaStateData
  cache : HMap Nat
  deriving DecidableEq

def BSt.empty : BSt := ⟨HMap.empty, HMap.empty, HMap.empty⟩

/-- `DfaBuilder::NewDfaState(N, id)`: compute the id when the argument is 0
(the default), mark accepting if any NFA state in `N` is, record the raw
non-ε successors in `d[id]`, and create the state with sequence number
`states.size() + 1` (a `uint16_t`, hence `% 2^16`). -/
def newDfaState (nst : List NfaStateData) (bst : BSt) (N : HSet) (idArg : Nat) :
    BSt × Nat :=
  let id := if idArg = 0 then hashNfaStateIds N else idArg
  let isEnd := N.toList.any (fun s => (nstGet nst s).isEnd)
  let d := N.toList.foldl (fun d s =>
    (nstGet nst s).transitions.toList.foldl (fun d p =>
      if p.1 ≠ EPSILON then
        HMap.modifyV hashU32 d id HMap.empty
          (fun tbl => tbl.modifyV hashChar p.1 HSet.empty
            (fun ss => ss.merge hashU32 p.2))
      else d) d) bst.d
  let st : DfaStateData := ⟨id, isEnd, (bst.states.size + 1) % 65536, HMap.empty⟩
  ({ bst with
      d := d
      states := bst.states.modifyV hashU32 id default (fun _ => st) }, id)

/-- The DFS loop of `DfaBuilder::EpsilonClosure`; the stack is a list with
its head as the top.  Fuel-bounded: every iteration pops once, and pushes
are bounded by the number of allocated NFA states. -/
def epsilonClosureGo (nst : List NfaStateData) : Nat → List Nat → HSet → Option HSet
  | 0, stack, N => if stack.isEmpty then some N else none
  | fuel + 1, stack, N =>
    match stack with
    | [] => some N
    | s :: rest =>
      let dd := nstGet nst s
      if !dd.acceptC EPSILON then epsilonClosureGo nst fuel rest N
      else
        let nexts := (dd.transitions.getp hashChar EPSILON).getD HSet.empty
        let acc := nexts.toList.foldl
          (fun (acc : HSet × List Nat) t =>
            if acc.1.has hashU32 t then acc else (acc.1.add hashU32 t, t :: acc.2))
          (N, rest)
        epsilonClosureGo nst fuel acc.2 acc.1

/-- `DfaBuilder::EpsilonClosure(N)`: expand `N` in place through `EPSILON`
transitions; the stack starts with all of `N` pushed in iteration order. -/
def epsilonClosure (nst : List NfaStateData) (N : HSet) (fuel : Nat) : Option HSet :=
  epsilonClosureGo nst fuel (N.toList.foldl (fun st s => s :: st) []) N

/-- `DfaBuilder::Move(S, c)`.  `d.get(...)`/`states.get(...)` throw on a
missing key (`none`). -/
def move (nst : List NfaStateData) (bst : BSt) (S c eFuel : Nat) :
    Option (BSt × Nat) :=
  (bst.d.getp hashU32 S).bind fun tbl =>
  (tbl.getp hashChar c).bind fun N =>
  let kid := hashNfaStateIds N
  match bst.cache.getp hashU32 kid with
  | some id' => (bst.states.getp hashU32 id').map (fun _ => (bst, id'))
  | none =>
    (epsilonClosure nst N eFuel).bind fun N1 =>
    let id := hashNfaStateIds N1
    let bst := if bst.states.has hashU32 id then bst else (newDfaState nst bst N1 id).1
    let bst := { bst with cache := bst.cache.set hashU32 kid id }
    (bst.states.getp hashU32 id).map (fun _ => (bst, id))

/-- The built DFA: start state id, the state set (`dfa->states`), the
accepted characters (`dfa->chs`), and the builder's id-keyed state store
(the objects the `DfaState*` pointers refer to). -/
structure Dfa where
  start : Nat
  statesSet : HSet
  chs : HSet
  store : HMap DfaStateData
  deriving DecidableEq

instance : Inhabited Dfa := ⟨⟨0, HSet.empty, HSet.empty, HMap.empty⟩⟩

/-- The body of `DfaBuilder::Build`'s work-queue loop.  Per iteration: pop
`S`; if `d[S.id]` exists, collect its keys into a set `chs`, and for each
`c` in that set `Move`, record `S --c--> T`, and enqueue `T` unless it is
already in the DFA or the queue; finally `dfa->AddState(S)`. -/
def buildLoop (nst : List NfaStateData) (eFuel : Nat) :
    Nat → BSt → UQueue → HSet → HSet → Option (BSt × HSet × HSet)
  | 0, bst, q, sSet, chs => if q.isEmpty then some (bst, sSet, chs) else none
  | fuel + 1, bst, q, sSet, chs =>
    if q.isEmpty then some (bst, sSet, chs) else
    (q.pop hashU32).bind fun (S, q) =>
    (match bst.d.getp hashU32 S with
     | none => some (bst, q)
     | some transitions =>
       let chsL := transitions.toList.foldl
         (fun (cs : HSet) (p : Nat × HSet) => cs.add hashChar p.1) HSet.empty
       chsL.toList.foldlM (fun (acc : BSt × UQueue) c =>
         (move nst acc.1 S c eFuel).map fun (bt : BSt × Nat) =>
           let bst := { bt.1 with
             states := bt.1.states.modifyV hashU32 S default
               (fun dd => dd.addTransitionD c bt.2) }
           let q :=
             if !(sSet.has hashU32 bt.2) && !(acc.2.has hashU32 bt.2) then
               (acc.2.push hashU32 bt.2).1
             else acc.2
           (bst, q)) (bst, q)).bind
    fun (bst, q) =>
      let sSet := sSet.add hashU32 S
      match bst.states.getp hashU32 S with
      | none => none
      | some dd =>
        let chs := dd.transitions.toList.foldl
          (fun (cs : HSet) (p : Nat × Nat) => cs.add hashChar p.1) chs
        buildLoop nst eFuel fuel bst q sSet chs

/-- `DfaBuilder::Build`. -/
def build (nst : List NfaStateData) (f : Frag) : Option Dfa :=
  let eFuel := 2 * nst.length + 8
  let N0 := HSet.empty.add hashU32 f.start
  (epsilonClosure nst N0 eFuel).bind fun N0 =>
  let bs0 := newDfaState nst BSt.empty N0 0
  let q0 := (UQueue.empty.push hashU32 bs0.2).1
  (buildLoop nst eFuel (2 ^ (nst.length + 2)) bs0.1 q0 HSet.empty HSet.empty).map
    fun r => ⟨bs0.2, r.2.1, r.2.2, r.1.states⟩

/-- `Dfa::Match(s)`: walk the (un-frozen) DFA's transition maps from the
start state; reject on a missing transition, else accept iff the final
state's `is_end`. -/
def dfaMatchGo (dfa : Dfa) : List Nat → Nat → Option Bool
  | [], st => (dfa.store.getp hashU32 st).map (·.isEnd)
  | c :: rest, st =>
    match dfa.store.getp hashU32 st with
    | none => none
    | some dd =>
      match dd.transitions.getp hashChar c with
      | none => some false
      | some tgt => dfaMatchGo dfa rest tgt

def dfaMatch (dfa : Dfa) (s : List Nat) : Option Bool := dfaMatchGo dfa s dfa.start

/-! ## Freezing (`FixedDfa` constructor) and the table matcher -/

/-- `ch % AlphabetSize` where `ch` is a (signed) `char` and
`AlphabetSize = 128` is a `size_t`: bytes ≥ 0x80 convert to
`2^64 - 256 + b` first.  Since `2^64 ≡ 0` and `256 ≡ 0 (mod 128)` this
equals `b % 128`. -/
def chIdx (c : Nat) : Nat :=
  (if c < 128 then c else 18446744073709551616 - 256 + c) % 128

/-- The character index table: `tmp[A]` zero-filled, then
`tmp[chs[i] % A] = i + 1` for each `i` (an `uint8_t` store, hence
`% 256`). -/
def mkIndexTableGo (t : List Nat) (i : Nat) : List Nat → List Nat
  | [] => t
  | c :: cs => mkIndexTableGo (t.set (chIdx c) ((i + 1) % 256)) (i + 1) cs

def mkIndexTable (chs : List Nat) : List Nat :=
  mkIndexTableGo (List.replicate 128 0) 0 chs

/-- The frozen artifact: `chs[NChars]`, `transitions[NStates][NChars]`,
`st_is_end_table[NStates]`. -/
structure FrozenTables where
  chs : List Nat
  transitions : List (List Nat)
  stIsEnd : List Bool
  deriving DecidableEq

/-- Bounds-checked 2-D store `transitions[r][c] = v`; an out-of-bounds
index is UB in the `constexpr` evaluation (`none`). -/
def setCell (t : List (List Nat)) (r c v : Nat) : Option (List (List Nat)) :=
  match t.get? r with
  | none => none
  | some row => if c < row.length then some (t.set r (row.set c v)) else none

/-- Bounds-checked `st_is_end_table[r] = true`. -/
def setAccept (a : List Bool) (r : Nat) : Option (List Bool) :=
  if r < a.length then some (a.set r true) else none

/-- The transition-filling loop for one DFA state:
`for ((ch, to) : st->Transitions()) transitions[st->No()-1][tmp[ch%A]-1] = to->No()`.
`j = 0` produces the array index `-1` and `no = 0` the row index `-1`,
both UB (`none`); `to->No()` dereferences the target pointer. -/
def fillState (store : HMap DfaStateData) (tmp : List Nat) (dd : DfaStateData)
    (t : List (List Nat)) : Option (List (List Nat)) :=
  dd.transitions.toList.foldlM (fun t p =>
    let j := tmp.getD (chIdx p.1) 0
    match store.getp hashU32 p.2 with
    | none => none
    | some ddTo =>
      if j = 0 then none
      else if dd.no = 0 then none
      else setCell t (dd.no - 1) (j - 1) ddTo.no) t

/-- The `for (auto st : dfa->states)` filling loop: transition rows and
the accepting bitmap (`st_is_end_table[st->No()-1] = true` only when
`st->IsEnd()`). -/
def fillAll (store : HMap DfaStateData) (tmp : List Nat) (ids : List Nat)
    (t : List (List Nat)) (a : List Bool) :
    Option (List (List Nat) × List Bool) :=
  ids.foldlM (fun (ta : List (List Nat) × List Bool) id =>
    match store.getp hashU32 id with
    | none => none
    | some dd =>
      (fillState store tmp dd ta.1).bind fun t1 =>
      if dd.isEnd then
        if dd.no = 0 then none
        else (setAccept ta.2 (dd.no - 1)).map (fun a1 => (t1, a1))
      else some (t1, ta.2)) (t, a)

/-- The `FixedDfa` constructor: sizes from the built DFA (`dfa_count`
builds the same DFA deterministically), `chs` from `dfa->chs` in iteration
order, the `tmp` index table, then the transition/accepting tables. -/
def freeze (dfa : Dfa) : Option FrozenTables :=
  let nStates := dfa.statesSet.size
  let nChars := dfa.chs.size
  let chsL := dfa.chs.toList
  if nChars < chsL.length then none    -- `chs[i++] = ch` would write past the array
  else
    let chsA := chsL ++ List.replicate (nChars - chsL.length) 0
    let tmp := mkIndexTable chsA
    (fillAll dfa.store tmp dfa.statesSet.toList
        (List.replicate nStates (List.replicate nChars 0))
        (List.replicate nStates false)).map
      fun ta => ⟨chsA, ta.1, ta.2⟩

/-- The matching loop of `FixedDfa::Match`, with its `fail`/`break`
structure: returns `(fail, st)` after the loop.  Every table access is
bounds-checked (`none` = UB). -/
def matchLoop (tbl : FrozenTables) (t : List Nat) : List Nat → Nat → Option (Bool × Nat)
  | [], st => some (false, st)
  | ch :: rest, st =>
    match t.get? (chIdx ch) with
    | none => none
    | some j =>
      if j = 0 then some (true, st)
      else
        match tbl.transitions.get? (st - 1) with
        | none => none
        | some row =>
          match row.get? (j - 1) with
          | none => none
          | some tgt => if tgt = 0 then some (true, st) else matchLoop tbl t rest tgt

/-- `FixedDfa::Match(s)`: build the index table from `chs` (the same
formula whether `pre_index` persisted it or not), run the loop from
`st = 1`, and on completion return `st_is_end_table[st - 1]`; a `fail`
exit returns `false` without consulting the bitmap. -/
def fixedMatch (tbl : FrozenTables) (s : List Nat) : Option Bool :=
  let t := mkIndexTable tbl.chs
  (matchLoop tbl t s 1).bind fun fs =>
    if fs.1 then some false else tbl.stIsEnd.get? (fs.2 - 1)

/-- The matching algorithm as the spec states it (§4.5 steps 2–4, the
wording quoted by claim C1): `st ← 1`; per byte `ch`,
`j ← index_table[ch mod A]`, reject if `j = 0`, else
`to ← transitions[st-1][j-1]`, reject if `to = 0`, else `st ← to`; if the
loop completes, accept iff `accept[st-1]`. -/
def specStep (tbl : FrozenTables) (t : List Nat) : List Nat → Nat → Option Bool
  | [], st => tbl.stIsEnd.get? (st - 1)
  | ch :: rest, st =>
    (t.get? (ch % 128)).bind fun j =>
      if j = 0 then some false
      else
        (tbl.transitions.get? (st - 1)).bind fun row =>
          (row.get? (j - 1)).bind fun tgt =>
            if tgt = 0 then some false else specStep tbl t rest tgt

def specMatch (tbl : FrozenTables) (s : List Nat) : Option Bool :=
  specStep tbl (mkIndexTable tbl.chs) s 1

/-! ## End-to-end entry points (`build<pattern>`, `Compile`, `Match`) -/

/-- `build<pattern>`: parse to an NFA, then subset-construct the DFA. -/
def compileDfa (p : List Nat) : Option Dfa :=
  (parse p).bind fun pf => build pf.1.states pf.2

/-- `Compile<pattern>`: build the DFA and freeze it into the fixed
tables. -/
def compileFixed (p : List Nat) : Option FrozenTables :=
  (compileDfa p).bind freeze

/-- `ctre::Match<pattern>(s)` = `Compile<pattern>().Match(s)`. -/
def ctreMatch (p s : List Nat) : Option Bool :=
  (compileFixed p).bind fun tbl => fixedMatch tbl s

/-- Pattern/input text as a byte list. -/
def strBytes (s : String) : List Nat := s.toList.map Char.toNat

/-! ## Structural invariants of a built DFA

`WfDfa` collects the structural facts `DfaBuilder::Build` establishes for
the DFA it hands to `FixedDfa`: hash-table bookkeeping is consistent
(`n` equals the number of used slots, keys are unique — the builder never
creates two states with one id and never removes entries), the state set
and the id-keyed store describe the same states, sequence numbers `no`
are distinct, in `[1, NStates]`, with the start state numbered 1,
transitions stay inside the DFA and their labels inside `chs`, `chs` is
exactly the set of used labels, and the table sizes fit `uint16_t` /
`uint8_t`.  The predicate is decidable, so it can be checked by
evaluation on any concretely built DFA. -/

/-- The element count `n` agrees with the number of used slots. -/
def consistent {V : Type} (m : HMap V) : Prop := m.n = m.toList.length

/-- The used slots hold pairwise distinct keys. -/
def keysNodup {V : Type} (m : HMap V) : Prop := (m.toList.map Prod.fst).Nodup

instance {V : Type} (m : HMap V) : Decidable (consistent m) := by
  unfold consistent; infer_instance

instance {V : Type} (m : HMap V) : Decidable (keysNodup m) := by
  unfold keysNodup; infer_instance

def WfDfa (dfa : Dfa) : Prop :=
  consistent dfa.store ∧ keysNodup dfa.store ∧
  consistent dfa.statesSet.m ∧ keysNodup dfa.statesSet.m ∧
  consistent dfa.chs.m ∧ keysNodup dfa.chs.m ∧
  (∀ id ∈ dfa.statesSet.toList, id ∈ dfa.store.toList.map Prod.fst) ∧
  (∀ p ∈ dfa.store.toList, p.1 ∈ dfa.statesSet.toList) ∧
  (∀ p ∈ dfa.store.toList,
    1 ≤ p.2.no ∧ p.2.no ≤ dfa.statesSet.toList.length ∧
    consistent p.2.transitions ∧ keysNodup p.2.transitions ∧
    (∀ q ∈ p.2.transitions.toList,
      q.1 ∈ dfa.chs.toList ∧ q.2 ∈ dfa.statesSet.toList)) ∧
  (dfa.store.toList.map (fun p => p.2.no)).Nodup ∧
  dfa.start ∈ dfa.statesSet.toList ∧
  (∀ p ∈ dfa.store.toList, p.1 = dfa.start → p.2.no = 1) ∧
  (∀ c ∈ dfa.chs.toList,
    ∃ p ∈ dfa.store.toList, c ∈ p.2.transitions.toList.map Prod.fst) ∧
  dfa.statesSet.toList.length ≤ 65535 ∧
  dfa.chs.toList.length ≤ 255

instance (dfa : Dfa) : Decidable (WfDfa dfa) := by
  unfold WfDfa; infer_instance

/-- The value a transition-table row ends up with after `fillState`: the
row-level restatement of the write
`transitions[no-1][tmp[ch%A]-1] = to->No()` (used to *specify* the filling
loops; `fillState` itself is the embedding of the source loop). -/
def rowFill (store : HMap DfaStateData) (tmp : List Nat) (row : List Nat)
    (entries : List (Nat × Nat)) : List Nat :=
  entries.foldl
    (fun row p =>
      row.set (tmp.getD (chIdx p.1) 0 - 1) (((store.getp hashU32 p.2).getD default).no))
    row

/-! ## Concrete pipeline runs used as witnesses -/

instance : Inhabited Frag := ⟨⟨0, 0, 0⟩⟩

instance : Inhabited FrozenTables := ⟨⟨[], [], []⟩⟩

/-- The DFA built from the pattern `ab`. -/
def dfaAB : Dfa := (compileDfa (strBytes "ab")).getD default

/-- The frozen tables of the pattern `ab`. -/
def tblAB : FrozenTables := (freeze dfaAB).getD default

/-- The DFA built from the pattern `a|σ` where `σ` is byte `0xe1 = 225`;
its two accepted bytes 97 and 225 collide modulo the alphabet size 128. -/
def dfaCollide : Dfa := (compileDfa [97, 124, 225]).getD default

/-- Parser state after parsing the pattern `a` (used to exercise the
Thompson constructions on concrete states). -/
def psA : PSt := ((parse (strBytes "a")).getD (PSt.empty, default)).1

/-- A queue holding the single element 5. -/
def uqDemo : UQueue := (UQueue.empty.push hashU32 5).1

end Ctre

namespace Ctre

/-! Theorems.

Basic facts about the alphabet indexing. -/

theorem chIdx_lt (c : Nat) : chIdx c < 128 :=
  Nat.mod_lt _ (by norm_num)

/-- The `size_t` conversion inside `ch % AlphabetSize` is invisible at the
default alphabet size: `2^64 ≡ 0` and `256 ≡ 0 (mod 128)`. -/
theorem chIdx_eq (c : Nat) : chIdx c = c % 128 := by
  unfold chIdx
  by_cases h : c < 128
  · simp [h]
  · simp only [h, if_false]
    rw [show (18446744073709551616 - 256 + c) = 128 * 144115188075855870 + c by norm_num,
      Nat.mul_add_mod]

/-! ## The table-matching loop computes the spec's algorithm -/

theorem matchLoop_spec (tbl : FrozenTables) (t : List Nat) (s : List Nat) :
    ∀ st, ((matchLoop tbl t s st).bind fun fs =>
        if fs.1 then some false else tbl.stIsEnd.get? (fs.2 - 1))
      = specStep tbl t s st := by
  induction s with
  | nil => intro st; simp [matchLoop, specStep]
  | cons ch rest ih =>
    intro st
    simp only [matchLoop, specStep, ← chIdx_eq]
    cases hj : t.get? (chIdx ch) with
    | none => simp
    | some j =>
      by_cases hj0 : j = 0
      · simp [hj0]
      · cases hrow : tbl.transitions.get? (st - 1) with
        | none => simp [hj0, hrow]
        | some row =>
          cases hc : row.get? (j - 1) with
          | none => simp [hj0, hrow, hc, ← List.get?_eq_getElem?]
          | some tgt =>
            by_cases ht0 : tgt = 0
            · simp [hj0, hrow, hc, ht0, ← List.get?_eq_getElem?]
            · simp only [hj0, if_false, ht0, hrow, Option.some_bind,
                ← List.get?_eq_getElem?, hc]
              exact ih tgt

/-- `FixedDfa::Match` equals the spec's matching algorithm, for every
table and every input. -/
theorem fixedMatch_eq_specMatch (tbl : FrozenTables) (s : List Nat) :
    fixedMatch tbl s = specMatch tbl s :=
  matchLoop_spec tbl (mkIndexTable tbl.chs) s 1

/-! ## Lookup lemmas for the open-addressed `map` -/

theorem probeGet_mem {V : Type} (slots : List (Option (Nat × V))) (base k : Nat) :
    ∀ fuel i v, probeGet slots base k i fuel = some v → some (k, v) ∈ slots := by
  intro fuel
  induction fuel with
  | zero => intro i v h; simp [probeGet] at h
  | succ n ih =>
    intro i v h
    unfold probeGet at h
    cases hs : slots.get? ((base + i) % slots.length) with
    | none => rw [hs] at h; exact ih _ _ h
    | some o =>
      cases o with
      | none => rw [hs] at h; exact ih _ _ h
      | some kv =>
        obtain ⟨k', v'⟩ := kv
        rw [hs] at h
        by_cases hk : k' = k
        · simp only [hk, if_true] at h
          obtain rfl : v' = v := by injection h
          subst hk
          exact List.get?_mem hs
        · simp only [hk, if_false] at h
          exact ih _ _ h

theorem HMap.getp_mem {V : Type} (h : Nat → Nat) (m : HMap V) (k : Nat) (v : V)
    (hg : m.getp h k = some v) : (k, v) ∈ m.toList := by
  unfold HMap.getp at hg
  by_cases hn : m.n = 0
  · simp [hn] at hg
  · simp only [hn, if_false] at hg
    have := probeGet_mem m.slots (h k) k m.slots.length 0 v hg
    exact List.mem_filterMap.mpr ⟨some (k, v), this, rfl⟩

theorem exists_probe_offset (len base p : Nat) (hp : p < len) :
    ∃ j, j < len ∧ (base + j) % len = p := by
  have hlen : 0 < len := lt_of_le_of_lt (Nat.zero_le _) hp
  have hrlt : base % len < len := Nat.mod_lt _ hlen
  have hbase : len * (base / len) + base % len = base := Nat.div_add_mod base len
  by_cases hc : base % len ≤ p
  · refine ⟨p - base % len, by omega, ?_⟩
    rw [show base + (p - base % len) = len * (base / len) + p by omega,
      Nat.mul_add_mod]
    exact Nat.mod_eq_of_lt hp
  · have hd : len * (base / len + 1) = len * (base / len) + len := by ring
    refine ⟨p + len - base % len, by omega, ?_⟩
    rw [show base + (p + len - base % len) = len * (base / len + 1) + p by omega,
      Nat.mul_add_mod]
    exact Nat.mod_eq_of_lt hp

theorem probeGet_isSome {V : Type} (slots : List (Option (Nat × V))) (base k : Nat) :
    ∀ fuel i, (∃ j v, j < fuel ∧
        slots.get? ((base + (i + j)) % slots.length) = some (some (k, v))) →
      (probeGet slots base k i fuel).isSome := by
  intro fuel
  induction fuel with
  | zero => rintro i ⟨j, v, hj, _⟩; omega
  | succ n ih =>
    rintro i ⟨j, v, hj, hv⟩
    unfold probeGet
    cases hs : slots.get? ((base + i) % slots.length) with
    | none =>
      cases j with
      | zero => rw [Nat.add_zero] at hv; rw [hv] at hs; cases hs
      | succ j' =>
        exact ih (i + 1) ⟨j', v, by omega, by rw [show i + 1 + j' = i + (j' + 1) by omega]; exact hv⟩
    | some o =>
      cases o with
      | none =>
        cases j with
        | zero => rw [Nat.add_zero] at hv; rw [hv] at hs; cases hs
        | succ j' =>
          exact ih (i + 1) ⟨j', v, by omega, by rw [show i + 1 + j' = i + (j' + 1) by omega]; exact hv⟩
      | some kv =>
        obtain ⟨k', v'⟩ := kv
        by_cases hk : k' = k
        · simp [hk]
        · simp only [hk, if_false]
          cases j with
          | zero =>
            rw [Nat.add_zero] at hv; rw [hv] at hs
            injection hs with hs'; injection hs' with hs''
            exact absurd (congrArg Prod.fst hs'').symm (by simpa using hk)
          | succ j' =>
            exact ih (i + 1) ⟨j', v, by omega, by rw [show i + 1 + j' = i + (j' + 1) by omega]; exact hv⟩

theorem HMap.getp_isSome_of_mem {V : Type} (h : Nat → Nat) (m : HMap V) (k : Nat) (v : V)
    (hmem : (k, v) ∈ m.toList) (hn : m.n ≠ 0) : (m.getp h k).isSome := by
  unfold HMap.getp
  simp only [hn, if_false]
  obtain ⟨a, ha, haeq⟩ := List.mem_filterMap.mp hmem
  obtain rfl : a = some (k, v) := haeq
  obtain ⟨p, hp⟩ := List.mem_iff_get?.mp ha
  have hplen : p < m.slots.length := (List.get?_eq_some.mp hp).1
  obtain ⟨j, hj, hje⟩ := exists_probe_offset m.slots.length (h k) p hplen
  exact probeGet_isSome m.slots (h k) k m.slots.length 0
    ⟨j, v, hj, by rw [Nat.zero_add, hje]; exact hp⟩

theorem keys_nodup_val_eq {V : Type} {l : List (Nat × V)}
    (hnd : (l.map Prod.fst).Nodup) {k : Nat} {v v' : V}
    (h1 : (k, v) ∈ l) (h2 : (k, v') ∈ l) : v = v' := by
  induction l with
  | nil => cases h1
  | cons p rest ih =>
    rw [List.map_cons, List.nodup_cons] at hnd
    cases h1 with
    | head =>
      cases h2 with
      | head => rfl
      | tail _ h2' => exact absurd (List.mem_map.mpr ⟨(k, v'), h2', rfl⟩) hnd.1
    | tail _ h1' =>
      cases h2 with
      | head => exact absurd (List.mem_map.mpr ⟨(k, v), h1', rfl⟩) hnd.1
      | tail _ h2' => exact ih hnd.2 h1' h2'

theorem HMap.getp_eq_of_mem {V : Type} (h : Nat → Nat) (m : HMap V) (k : Nat) (v : V)
    (hc : consistent m) (hnd : keysNodup m) (hmem : (k, v) ∈ m.toList) :
    m.getp h k = some v := by
  have hn : m.n ≠ 0 := by
    unfold consistent at hc
    rw [hc]
    intro hz
    rw [List.length_eq_zero.mp hz] at hmem
    exact List.not_mem_nil _ hmem
  obtain ⟨v', hv'⟩ := Option.isSome_iff_exists.mp (HMap.getp_isSome_of_mem h m k v hmem hn)
  rw [hv']
  exact congrArg some (keys_nodup_val_eq hnd (HMap.getp_mem h m k v' hv') hmem)

theorem HMap.getp_eq_none {V : Type} (h : Nat → Nat) (m : HMap V) (k : Nat)
    (hnot : k ∉ m.toList.map Prod.fst) : m.getp h k = none := by
  cases hg : m.getp h k with
  | none => rfl
  | some v =>
    exact absurd (List.mem_map.mpr ⟨(k, v), HMap.getp_mem h m k v hg, rfl⟩) hnot

end Ctre

namespace Ctre

/-! ## `pop` clears every slot holding the key -/

theorem popStep_length {V : Type} (h : Nat → Nat) (k : Nat) (acc : HMap V) (i : Nat) :
    (popStep h k acc i).slots.length = acc.slots.length := by
  unfold popStep
  cases hs : acc.slots.get? ((h k + i) % acc.slots.length) with
  | none => rfl
  | some o =>
    cases o with
    | none => rfl
    | some kv =>
      obtain ⟨k', v⟩ := kv
      by_cases hk : k' = k
      · simp [hk, List.length_set]
      · simp [hk]

theorem popStep_clean_mono {V : Type} (h : Nat → Nat) (k : Nat) (acc : HMap V)
    (i p : Nat) (hcl : ∀ v, acc.slots.get? p ≠ some (some (k, v))) :
    ∀ v, (popStep h k acc i).slots.get? p ≠ some (some (k, v)) := by
  intro v
  unfold popStep
  cases hs : acc.slots.get? ((h k + i) % acc.slots.length) with
  | none => exact hcl v
  | some o =>
    cases o with
    | none => exact hcl v
    | some kv =>
      obtain ⟨k', v'⟩ := kv
      by_cases hk : k' = k
      · simp only [hk, if_true]
        rw [List.get?_set]
        by_cases hpq : (h k + i) % acc.slots.length = p
        · simp only [hpq, if_true]
          cases acc.slots.get? p <;> simp
        · simp only [hpq, if_false]
          exact hcl v
      · simp only [hk, if_false]
        exact hcl v

theorem popStep_clean_self {V : Type} (h : Nat → Nat) (k : Nat) (acc : HMap V) (i : Nat) :
    ∀ v, (popStep h k acc i).slots.get? ((h k + i) % acc.slots.length)
      ≠ some (some (k, v)) := by
  intro v
  unfold popStep
  cases hs : acc.slots.get? ((h k + i) % acc.slots.length) with
  | none => simp [← List.get?_eq_getElem?, hs]
  | some o =>
    cases o with
    | none => simp [← List.get?_eq_getElem?, hs]
    | some kv =>
      obtain ⟨k', v'⟩ := kv
      by_cases hk : k' = k
      · simp only [hk, if_true]
        rw [List.get?_set]
        simp [hs]
      · simp only [hk, if_false, hs]
        intro hcon
        injection hcon with hcon'
        injection hcon' with hcon''
        exact hk (congrArg Prod.fst hcon'')

theorem popFold_length {V : Type} (h : Nat → Nat) (k : Nat) :
    ∀ (is : List Nat) (acc : HMap V),
      (is.foldl (popStep h k) acc).slots.length = acc.slots.length := by
  intro is
  induction is with
  | nil => intro acc; rfl
  | cons i rest ih =>
    intro acc
    rw [List.foldl_cons, ih, popStep_length]

theorem popFold_clean_mono {V : Type} (h : Nat → Nat) (k : Nat) :
    ∀ (is : List Nat) (acc : HMap V) (p : Nat),
      (∀ v, acc.slots.get? p ≠ some (some (k, v))) →
      ∀ v, (is.foldl (popStep h k) acc).slots.get? p ≠ some (some (k, v)) := by
  intro is
  induction is with
  | nil => intro acc p hcl v; exact hcl v
  | cons i rest ih =>
    intro acc p hcl v
    rw [List.foldl_cons]
    exact ih (popStep h k acc i) p (popStep_clean_mono h k acc i p hcl) v

theorem popFold_clean {V : Type} (h : Nat → Nat) (k : Nat) :
    ∀ (is : List Nat) (acc : HMap V) (j : Nat), j ∈ is →
      ∀ v, (is.foldl (popStep h k) acc).slots.get? ((h k + j) % acc.slots.length)
        ≠ some (some (k, v)) := by
  intro is
  induction is with
  | nil => intro acc j hj; cases hj
  | cons i rest ih =>
    intro acc j hj v
    rw [List.foldl_cons]
    rcases List.mem_cons.mp hj with rfl | hmem
    · exact popFold_clean_mono h k rest (popStep h k acc j)
        ((h k + j) % acc.slots.length) (popStep_clean_self h k acc j) v
    · have := ih (popStep h k acc i) j hmem v
      rw [popStep_length] at this
      exact this

/-- After `pop(k)`, no probe (under any hash function) can find key `k`:
every slot that held it was cleared. -/
theorem HMap.getp_pop_self {V : Type} (h h' : Nat → Nat) (m : HMap V) (k : Nat) :
    (m.pop h k).getp h' k = none := by
  unfold HMap.pop
  by_cases hn : m.n = 0
  · simp [hn, HMap.getp]
  · simp only [hn, if_false]
    cases hg : ((List.range m.cap).foldl (popStep h k) m).getp h' k with
    | none => rfl
    | some v =>
      exfalso
      have hmem := HMap.getp_mem h' _ k v hg
      obtain ⟨a, ha, haeq⟩ := List.mem_filterMap.mp hmem
      obtain rfl : a = some (k, v) := haeq
      obtain ⟨p, hp⟩ := List.mem_iff_get?.mp ha
      have hplen : p < ((List.range m.cap).foldl (popStep h k) m).slots.length :=
        (List.get?_eq_some.mp hp).1
      rw [popFold_length] at hplen
      obtain ⟨j, hj, hje⟩ := exists_probe_offset m.slots.length (h k) p hplen
      have hclean := popFold_clean h k (List.range m.cap) m j
        (List.mem_range.mpr hj) v
      rw [hje] at hclean
      exact hclean hp

/-- `set::pop(v)` really removes `v`: `has(v)` is false afterwards. -/
theorem HSet.has_pop_self (h h' : Nat → Nat) (s : HSet) (v : Nat) :
    (s.pop h v).has h' v = false := by
  unfold HSet.pop HSet.has HMap.has
  rw [HMap.getp_pop_self]
  rfl

/-! ## The character index table -/

theorem chIdx_small {c : Nat} (hc : c < 128) : chIdx c = c := by
  rw [chIdx_eq]
  exact Nat.mod_eq_of_lt hc

theorem mkIndexTableGo_length : ∀ (cs t : List Nat) (i : Nat),
    (mkIndexTableGo t i cs).length = t.length := by
  intro cs
  induction cs with
  | nil => intro t i; rfl
  | cons c cs' ih =>
    intro t i
    simp only [mkIndexTableGo]
    rw [ih, List.length_set]

theorem mkIndexTable_length (chs : List Nat) : (mkIndexTable chs).length = 128 := by
  unfold mkIndexTable
  rw [mkIndexTableGo_length, List.length_replicate]

theorem mkIndexTableGo_get : ∀ (cs t : List Nat) (i c : Nat),
    t.length = 128 → c < 128 → (∀ x ∈ cs, x < 128) → cs.Nodup →
    (mkIndexTableGo t i cs).get? c =
      if c ∈ cs then some ((i + List.indexOf c cs + 1) % 256) else t.get? c := by
  intro cs
  induction cs with
  | nil => intro t i c ht hc hb hnd; simp [mkIndexTableGo]
  | cons c0 cs' ih =>
    intro t i c ht hc hb hnd
    rw [List.nodup_cons] at hnd
    have hc0 : c0 < 128 := hb c0 (by simp)
    simp only [mkIndexTableGo]
    rw [ih (t.set (chIdx c0) ((i + 1) % 256)) (i + 1) c
      (by rw [List.length_set]; exact ht) hc (fun x hx => hb x (by simp [hx])) hnd.2]
    by_cases hcc : c = c0
    · subst hcc
      have hnotmem : c ∉ cs' := hnd.1
      simp only [hnotmem, if_false, List.mem_cons, true_or, if_true]
      rw [chIdx_small hc0, List.get?_set]
      simp only [if_pos rfl]
      have hcsome : t.get? c = some (t.get ⟨c, ht ▸ hc⟩) := List.get?_eq_get (ht ▸ hc)
      rw [hcsome]
      simp [List.indexOf_cons]
    · have hne : chIdx c0 ≠ c := by rw [chIdx_small hc0]; exact fun he => hcc he.symm
      by_cases hmem : c ∈ cs'
      · simp only [hmem, if_true, List.mem_cons, hcc, false_or, if_true]
        congr 2
        rw [List.indexOf_cons]
        have : (c0 == c) = false := beq_false_of_ne (fun he => hcc he.symm)
        rw [this]
        simp only [cond_false]
        omega
      · simp only [hmem, if_false, List.mem_cons, hcc, false_or, if_false]
        rw [List.get?_set_ne _ _ hne]

theorem get?_replicate_of_lt {α : Type} (a : α) {n i : Nat} (h : i < n) :
    (List.replicate n a).get? i = some a := by
  induction n generalizing i with
  | zero => omega
  | succ n ih =>
    cases i with
    | zero => rfl
    | succ i' => exact ih (by omega)

/-- Content of the index table for patterns whose accepted bytes are
distinct and below the alphabet size: slot `c` holds the 1-based position
of `c` in `chs`, or 0. -/
theorem mkIndexTable_get (chs : List Nat) (c : Nat) (hc : c < 128)
    (hb : ∀ x ∈ chs, x < 128) (hnd : chs.Nodup) (hlen : chs.length ≤ 255) :
    (mkIndexTable chs).get? c =
      some (if c ∈ chs then List.indexOf c chs + 1 else 0) := by
  unfold mkIndexTable
  rw [mkIndexTableGo_get chs _ 0 c (by rw [List.length_replicate]) hc hb hnd]
  by_cases hm : c ∈ chs
  · simp only [hm, if_true]
    congr 1
    have hidx : List.indexOf c chs < chs.length := List.indexOf_lt_length.mpr hm
    rw [Nat.zero_add]
    exact Nat.mod_eq_of_lt (by omega)
  · simp only [hm, if_false]
    exact get?_replicate_of_lt 0 hc

theorem mkIndexTableGo_range : ∀ (cs t : List Nat) (i N : Nat),
    (∀ p w, t.get? p = some w → w = 0 ∨ (1 ≤ w ∧ w ≤ N)) →
    i + cs.length ≤ N → N ≤ 255 →
    ∀ p w, (mkIndexTableGo t i cs).get? p = some w → w = 0 ∨ (1 ≤ w ∧ w ≤ N) := by
  intro cs
  induction cs with
  | nil => intro t i N ht _ _ p w hw; exact ht p w hw
  | cons c cs' ih =>
    intro t i N ht hle hN p w hw
    simp only [mkIndexTableGo] at hw
    refine ih _ (i + 1) N ?_ (by simp at hle ⊢; omega) hN p w hw
    intro p' w' hw'
    rw [List.get?_set] at hw'
    by_cases hpq : chIdx c = p'
    · simp only [hpq, if_true] at hw'
      cases hgp : t.get? p' with
      | none => rw [hgp] at hw'; cases hw'
      | some old =>
        rw [hgp] at hw'
        simp only [Option.map_some] at hw'
        obtain rfl : (i + 1) % 256 = w' := by injection hw'
        right
        have : i + 1 ≤ 255 := by simp at hle; omega
        rw [Nat.mod_eq_of_lt (by omega)]
        simp at hle
        omega
    · simp only [hpq, if_false] at hw'
      exact ht p' w' hw'

theorem mkIndexTable_range (chs : List Nat) (hlen : chs.length ≤ 255) :
    ∀ p w, (mkIndexTable chs).get? p = some w →
      w = 0 ∨ (1 ≤ w ∧ w ≤ chs.length) := by
  unfold mkIndexTable
  refine mkIndexTableGo_range chs _ 0 chs.length ?_ (by omega) hlen
  intro p w hw
  left
  have : w ∈ List.replicate 128 (0 : Nat) := List.get?_mem hw
  exact List.eq_of_mem_replicate this

theorem mkIndexTableGo_nonzero_mono : ∀ (cs t : List Nat) (i p : Nat),
    (∃ w, t.get? p = some w ∧ 1 ≤ w) → i + cs.length ≤ 255 →
    ∃ w, (mkIndexTableGo t i cs).get? p = some w ∧ 1 ≤ w := by
  intro cs
  induction cs with
  | nil => intro t i p hw _; exact hw
  | cons c cs' ih =>
    intro t i p hw hle
    obtain ⟨w, hwp, hw1⟩ := hw
    simp only [mkIndexTableGo]
    refine ih _ (i + 1) p ?_ (by simp at hle ⊢; omega)
    rw [List.get?_set]
    by_cases hpq : chIdx c = p
    · simp only [hpq, if_true, hwp, Option.map_some]
      refine ⟨(i + 1) % 256, rfl, ?_⟩
      have : i + 1 ≤ 255 := by simp at hle; omega
      rw [Nat.mod_eq_of_lt (by omega)]
      omega
    · simp only [hpq, if_false]
      exact ⟨w, hwp, hw1⟩

theorem mkIndexTableGo_written : ∀ (cs t : List Nat) (i c : Nat),
    t.length = 128 → c ∈ cs → i + cs.length ≤ 255 →
    ∃ w, (mkIndexTableGo t i cs).get? (chIdx c) = some w ∧ 1 ≤ w := by
  intro cs
  induction cs with
  | nil => intro t i c _ hc; cases hc
  | cons c0 cs' ih =>
    intro t i c ht hmem hle
    simp only [mkIndexTableGo]
    by_cases hmem' : c ∈ cs'
    · exact ih _ (i + 1) c (by rw [List.length_set]; exact ht) hmem'
        (by simp at hle ⊢; omega)
    · have hcc : c = c0 := by
        rcases List.mem_cons.mp hmem with h | h
        · exact h
        · exact absurd h hmem'
      subst hcc
      refine mkIndexTableGo_nonzero_mono cs' _ (i + 1) (chIdx c) ?_
        (by simp at hle ⊢; omega)
      rw [List.get?_set]
      simp only [if_pos rfl]
      have hlt : chIdx c < t.length := ht ▸ chIdx_lt c
      rw [List.get?_eq_get hlt]
      simp only [Option.map_some]
      refine ⟨(i + 1) % 256, rfl, ?_⟩
      have : i + 1 ≤ 255 := by simp at hle; omega
      rw [Nat.mod_eq_of_lt (by omega)]
      omega

/-- Every byte of `chs` gets a nonzero index-table entry bounded by
`chs.length`, collisions or not. -/
theorem mkIndexTable_mem (chs : List Nat) (c : Nat) (hmem : c ∈ chs)
    (hlen : chs.length ≤ 255) :
    ∃ w, (mkIndexTable chs).get? (chIdx c) = some w ∧ 1 ≤ w ∧ w ≤ chs.length := by
  obtain ⟨w, hw, h1⟩ := mkIndexTableGo_written chs (List.replicate 128 0) 0 c
    (by rw [List.length_replicate]) hmem (by omega)
  rcases mkIndexTable_range chs hlen (chIdx c) w hw with h0 | ⟨_, hb⟩
  · omega
  · exact ⟨w, hw, h1, hb⟩

end Ctre

namespace Ctre

/-! ## The table-filling loops -/

theorem setCell_eq (t : List (List Nat)) (r c v : Nat) (row : List Nat)
    (hr : t.get? r = some row) (hc : c < row.length) :
    setCell t r c v = some (t.set r (row.set c v)) := by
  unfold setCell
  rw [hr]
  simp [hc]

theorem rowFill_length (store : HMap DfaStateData) (tmp : List Nat) :
    ∀ (entries : List (Nat × Nat)) (row : List Nat),
      (rowFill store tmp row entries).length = row.length := by
  intro entries
  induction entries with
  | nil => intro row; rfl
  | cons p rest ih =>
    intro row
    unfold rowFill at ih ⊢
    rw [List.foldl_cons, ih, List.length_set]

theorem rowFill_get_not_mem (store : HMap DfaStateData) (tmp : List Nat) :
    ∀ (entries : List (Nat × Nat)) (row : List Nat) (c : Nat),
      (∀ p ∈ entries, tmp.getD (chIdx p.1) 0 - 1 ≠ c) →
      (rowFill store tmp row entries).get? c = row.get? c := by
  intro entries
  induction entries with
  | nil => intro row c _; rfl
  | cons p rest ih =>
    intro row c hno
    unfold rowFill at ih ⊢
    rw [List.foldl_cons, ih _ c (fun q hq => hno q (by simp [hq])),
      List.get?_set_ne _ _ (hno p (by simp))]

theorem rowFill_get_mem (store : HMap DfaStateData) (tmp : List Nat) :
    ∀ (entries : List (Nat × Nat)) (row : List Nat) (p : Nat × Nat),
      p ∈ entries → entries.Nodup →
      (∀ q ∈ entries, ∀ q' ∈ entries,
        tmp.getD (chIdx q.1) 0 - 1 = tmp.getD (chIdx q'.1) 0 - 1 → q = q') →
      tmp.getD (chIdx p.1) 0 - 1 < row.length →
      (rowFill store tmp row entries).get? (tmp.getD (chIdx p.1) 0 - 1) =
        some (((store.getp hashU32 p.2).getD default).no) := by
  intro entries
  induction entries with
  | nil => intro row p hp; cases hp
  | cons q rest ih =>
    intro row p hp hnd hinj hlt
    rw [List.nodup_cons] at hnd
    unfold rowFill
    rw [List.foldl_cons]
    rcases List.mem_cons.mp hp with rfl | hmem
    · have hrest : ∀ q' ∈ rest, tmp.getD (chIdx q'.1) 0 - 1 ≠ tmp.getD (chIdx p.1) 0 - 1 := by
        intro q' hq' heq
        exact hnd.1 (hinj q' (by simp [hq']) p (by simp) heq ▸ hq')
      show (rowFill store tmp _ rest).get? _ = _
      rw [rowFill_get_not_mem store tmp rest _ _ hrest]
      rw [List.get?_set]
      simp only [if_pos rfl]
      have : row.get? (tmp.getD (chIdx p.1) 0 - 1) =
          some (row.get ⟨_, hlt⟩) := List.get?_eq_get hlt
      rw [this]
      rfl
    · show (rowFill store tmp _ rest).get? _ = _
      refine ih _ p hmem hnd.2
        (fun a ha a' ha' he => hinj a (by simp [ha]) a' (by simp [ha']) he) ?_
      rw [List.length_set]
      exact hlt

theorem rowFill_range (store : HMap DfaStateData) (tmp : List Nat) (P : Nat → Prop) :
    ∀ (entries : List (Nat × Nat)) (row : List Nat),
      (∀ w ∈ row, P w) →
      (∀ p ∈ entries, P (((store.getp hashU32 p.2).getD default).no)) →
      ∀ w ∈ rowFill store tmp row entries, P w := by
  intro entries
  induction entries with
  | nil => intro row hrow _ w hw; exact hrow w hw
  | cons p rest ih =>
    intro row hrow hval w hw
    unfold rowFill at hw
    rw [List.foldl_cons] at hw
    refine ih _ ?_ (fun q hq => hval q (by simp [hq])) w hw
    intro w' hw'
    rcases List.mem_or_eq_of_mem_set hw' with h | h
    · exact hrow w' h
    · exact h ▸ hval p (by simp)

end Ctre

namespace Ctre

theorem set_get?_self {α : Type} : ∀ (l : List α) (n : Nat) (a : α),
    l.get? n = some a → l.set n a = l := by
  intro l
  induction l with
  | nil => intro n a h; cases h
  | cons x xs ih =>
    intro n a h
    cases n with
    | zero =>
      obtain rfl : x = a := by injection h
      rfl
    | succ n' =>
      simp only [List.set_cons_succ]
      rw [ih n' a h]

theorem fillState_fold (store : HMap DfaStateData) (tmp : List Nat) (dd : DfaStateData) :
    ∀ (entries : List (Nat × Nat)) (t : List (List Nat)) (row : List Nat),
      t.get? (dd.no - 1) = some row →
      dd.no ≠ 0 →
      (∀ p ∈ entries, (store.getp hashU32 p.2).isSome) →
      (∀ p ∈ entries, 1 ≤ tmp.getD (chIdx p.1) 0 ∧
        tmp.getD (chIdx p.1) 0 - 1 < row.length) →
      List.foldlM (fun t p =>
        let j := tmp.getD (chIdx p.1) 0
        match store.getp hashU32 p.2 with
        | none => none
        | some ddTo =>
          if j = 0 then none
          else if dd.no = 0 then none
          else setCell t (dd.no - 1) (j - 1) ddTo.no) t entries
      = some (t.set (dd.no - 1) (rowFill store tmp row entries)) := by
  intro entries
  induction entries with
  | nil =>
    intro t row ht _ _ _
    show some t = _
    rw [show rowFill store tmp row [] = row from rfl, set_get?_self t _ row ht]
  | cons p rest ih =>
    intro t row ht hno hsome hj
    obtain ⟨ddTo, hddTo⟩ := Option.isSome_iff_exists.mp (hsome p (by simp))
    have hj1 := hj p (by simp)
    have hjne : tmp.getD (chIdx p.1) 0 ≠ 0 := by omega
    rw [List.foldlM_cons, hddTo]
    show (if tmp.getD (chIdx p.1) 0 = 0 then none
        else if dd.no = 0 then none
        else setCell t (dd.no - 1) (tmp.getD (chIdx p.1) 0 - 1) ddTo.no) >>= _ = _
    rw [if_neg hjne, if_neg hno,
      setCell_eq t (dd.no - 1) (tmp.getD (chIdx p.1) 0 - 1) ddTo.no row ht hj1.2]
    show List.foldlM _
      (t.set (dd.no - 1) (row.set (tmp.getD (chIdx p.1) 0 - 1) ddTo.no)) rest = _
    have ht' : (t.set (dd.no - 1) (row.set (tmp.getD (chIdx p.1) 0 - 1) ddTo.no)).get?
        (dd.no - 1) = some (row.set (tmp.getD (chIdx p.1) 0 - 1) ddTo.no) := by
      rw [List.get?_set]
      simp only [if_pos rfl]
      rw [ht]
      rfl
    rw [ih _ _ ht' hno (fun q hq => hsome q (by simp [hq]))
      (fun q hq => by rw [List.length_set]; exact hj q (by simp [hq]))]
    rw [List.set_set]
    show _ = some (t.set (dd.no - 1) (rowFill store tmp
      (row.set (tmp.getD (chIdx p.1) 0 - 1) (((store.getp hashU32 p.2).getD default).no))
      rest))
    rw [hddTo]
    rfl

theorem fillState_eq (store : HMap DfaStateData) (tmp : List Nat) (dd : DfaStateData)
    (t : List (List Nat)) (row : List Nat)
    (ht : t.get? (dd.no - 1) = some row) (hno : dd.no ≠ 0)
    (hsome : ∀ p ∈ dd.transitions.toList, (store.getp hashU32 p.2).isSome)
    (hj : ∀ p ∈ dd.transitions.toList, 1 ≤ tmp.getD (chIdx p.1) 0 ∧
      tmp.getD (chIdx p.1) 0 - 1 < row.length) :
    fillState store tmp dd t =
      some (t.set (dd.no - 1) (rowFill store tmp row dd.transitions.toList)) := by
  unfold fillState
  exact fillState_fold store tmp dd dd.transitions.toList t row ht hno hsome hj

end Ctre

namespace Ctre

theorem fillAll_fold (store : HMap DfaStateData) (tmp : List Nat) :
    ∀ (ids : List Nat) (t : List (List Nat)) (a : List Bool) (NC : Nat),
      ids.Nodup →
      (∀ r row, t.get? r = some row → row.length = NC) →
      (∀ id ∈ ids, ∃ dd, store.getp hashU32 id = some dd ∧
        1 ≤ dd.no ∧ dd.no - 1 < t.length ∧ dd.no - 1 < a.length ∧
        (∀ p ∈ dd.transitions.toList, (store.getp hashU32 p.2).isSome ∧
          1 ≤ tmp.getD (chIdx p.1) 0 ∧ tmp.getD (chIdx p.1) 0 - 1 < NC)) →
      (∀ id ∈ ids, ∀ id' ∈ ids, ∀ dd dd',
        store.getp hashU32 id = some dd → store.getp hashU32 id' = some dd' →
        dd.no = dd'.no → id = id') →
      ∃ T A, fillAll store tmp ids t a = some (T, A) ∧
        T.length = t.length ∧ A.length = a.length ∧
        (∀ r row, T.get? r = some row → row.length = NC) ∧
        (∀ r, (∀ id ∈ ids, ∀ dd, store.getp hashU32 id = some dd → dd.no - 1 ≠ r) →
          T.get? r = t.get? r ∧ A.get? r = a.get? r) ∧
        (∀ id ∈ ids, ∀ dd, store.getp hashU32 id = some dd →
          (∃ row, t.get? (dd.no - 1) = some row ∧
            T.get? (dd.no - 1) = some (rowFill store tmp row dd.transitions.toList)) ∧
          A.get? (dd.no - 1) = (if dd.isEnd then some true else a.get? (dd.no - 1))) := by
  intro ids
  induction ids with
  | nil =>
    intro t a NC _ hrows _ _
    exact ⟨t, a, rfl, rfl, rfl, hrows, fun r _ => ⟨rfl, rfl⟩, by simp⟩
  | cons id rest ih =>
    intro t a NC hnd hrows hdd hnos
    rw [List.nodup_cons] at hnd
    obtain ⟨dd, hddv, h1, hlt, hla, htr⟩ := hdd id (by simp)
    have hrow : t.get? (dd.no - 1) = some (t.get ⟨dd.no - 1, hlt⟩) := List.get?_eq_get hlt
    set row := t.get ⟨dd.no - 1, hlt⟩ with hrowdef
    have hrowlen : row.length = NC := hrows _ _ hrow
    have hfs : fillState store tmp dd t =
        some (t.set (dd.no - 1) (rowFill store tmp row dd.transitions.toList)) :=
      fillState_eq store tmp dd t row hrow (by omega) (fun p hp => (htr p hp).1)
        (fun p hp => ⟨(htr p hp).2.1, by rw [hrowlen]; exact (htr p hp).2.2⟩)
    set t1 := t.set (dd.no - 1) (rowFill store tmp row dd.transitions.toList) with ht1def
    set a1 := if dd.isEnd then a.set (dd.no - 1) true else a with ha1def
    have hstep : fillAll store tmp (id :: rest) t a = fillAll store tmp rest t1 a1 := by
      unfold fillAll
      rw [List.foldlM_cons, hddv]
      show ((fillState store tmp dd t).bind fun t1 =>
        if dd.isEnd then
          if dd.no = 0 then none
          else (setAccept a (dd.no - 1)).map (fun a1 => (t1, a1))
        else some (t1, a)) >>= _ = _
      rw [hfs]
      show (if dd.isEnd then
          if dd.no = 0 then none
          else (setAccept a (dd.no - 1)).map (fun a1 => (t1, a1))
        else some (t1, a)) >>= _ = _
      by_cases hE : dd.isEnd
      · rw [if_pos hE, if_neg (show ¬ dd.no = 0 by omega)]
        unfold setAccept
        rw [if_pos hla]
        show List.foldlM _ (t1, a.set (dd.no - 1) true) rest = _
        rw [ha1def, if_pos hE]
      · rw [if_neg hE]
        show List.foldlM _ (t1, a) rest = _
        rw [ha1def, if_neg hE]
    have hrows1 : ∀ r row', t1.get? r = some row' → row'.length = NC := by
      intro r row' hr
      rw [ht1def, List.get?_set] at hr
      by_cases hreq : dd.no - 1 = r
      · rw [if_pos hreq] at hr
        cases hg : t.get? r with
        | none => rw [hg] at hr; cases hr
        | some rr =>
          rw [hg] at hr
          simp only [Option.map_some] at hr
          obtain rfl : rowFill store tmp row dd.transitions.toList = row' := by
            injection hr
          rw [rowFill_length, hrowlen]
      · rw [if_neg hreq] at hr
        exact hrows r row' hr
    have hlen1 : t1.length = t.length := by rw [ht1def, List.length_set]
    have halen1 : a1.length = a.length := by
      rw [ha1def]
      by_cases hE : dd.isEnd
      · rw [if_pos hE, List.length_set]
      · rw [if_neg hE]
    have hdd1 : ∀ id' ∈ rest, ∃ dd', store.getp hashU32 id' = some dd' ∧
        1 ≤ dd'.no ∧ dd'.no - 1 < t1.length ∧ dd'.no - 1 < a1.length ∧
        (∀ p ∈ dd'.transitions.toList, (store.getp hashU32 p.2).isSome ∧
          1 ≤ tmp.getD (chIdx p.1) 0 ∧ tmp.getD (chIdx p.1) 0 - 1 < NC) := by
      intro id' h'
      obtain ⟨dd', hv, p1, p2, p3, p4⟩ := hdd id' (by simp [h'])
      exact ⟨dd', hv, p1, by rw [hlen1]; exact p2, by rw [halen1]; exact p3, p4⟩
    have hnos1 : ∀ id0 ∈ rest, ∀ id' ∈ rest, ∀ dd0 dd',
        store.getp hashU32 id0 = some dd0 → store.getp hashU32 id' = some dd' →
        dd0.no = dd'.no → id0 = id' :=
      fun id0 h0 id' h' dd0 dd' hv0 hv' he =>
        hnos id0 (by simp [h0]) id' (by simp [h']) dd0 dd' hv0 hv' he
    obtain ⟨T, A, hTA, hTl, hAl, hTrows, hunt, hcont⟩ :=
      ih t1 a1 NC hnd.2 hrows1 hdd1 hnos1
    have havoid : ∀ id' ∈ rest, ∀ dd', store.getp hashU32 id' = some dd' →
        dd'.no - 1 ≠ dd.no - 1 := by
      intro id' h' dd' hv' heq
      obtain ⟨dd'', hv'', q1, _⟩ := hdd id' (by simp [h'])
      have hq : dd'' = dd' := by rw [hv'] at hv''; exact (Option.some.inj hv'').symm
      subst hq
      have hnoeq : dd''.no = dd.no := by omega
      have hii := hnos id' (by simp [h']) id (by simp) dd'' dd hv' hddv hnoeq
      exact hnd.1 (hii ▸ h')
    refine ⟨T, A, by rw [hstep]; exact hTA, by rw [hTl, hlen1],
      by rw [hAl, halen1], hTrows, ?_, ?_⟩
    · intro r hr
      have h2 := hunt r (fun id' h' dd' hv' => hr id' (by simp [h']) dd' hv')
      have hne : dd.no - 1 ≠ r := hr id (by simp) dd hddv
      constructor
      · rw [h2.1, ht1def, List.get?_set_ne _ _ hne]
      · rw [h2.2, ha1def]
        by_cases hE : dd.isEnd
        · rw [if_pos hE, List.get?_set_ne _ _ hne]
        · rw [if_neg hE]
    · intro id0 hid0 dd0 hdd0
      rcases List.mem_cons.mp hid0 with rfl | hmem
      · have hq : dd0 = dd := by rw [hddv] at hdd0; exact (Option.some.inj hdd0).symm
        subst hq
        have h2 := hunt (dd0.no - 1) havoid
        constructor
        · refine ⟨row, hrow, ?_⟩
          rw [h2.1, ht1def, List.get?_set]
          simp only [if_pos rfl]
          rw [hrow]
          rfl
        · rw [h2.2, ha1def]
          by_cases hE : dd0.isEnd
          · rw [if_pos hE, if_pos hE, List.get?_set]
            simp only [if_pos rfl]
            rw [List.get?_eq_get hla]
            rfl
          · rw [if_neg hE, if_neg hE]
      · have h2 := hcont id0 hmem dd0 hdd0
        have hne : dd0.no - 1 ≠ dd.no - 1 := havoid id0 hmem dd0 hdd0
        constructor
        · obtain ⟨row', hr1, hr2⟩ := h2.1
          refine ⟨row', ?_, hr2⟩
          rw [ht1def, List.get?_set_ne _ _ (fun he => hne he.symm)] at hr1
          exact hr1
        · rw [h2.2]
          by_cases hE0 : dd0.isEnd
          · rw [if_pos hE0, if_pos hE0]
          · rw [if_neg hE0, if_neg hE0, ha1def]
            by_cases hE : dd.isEnd
            · rw [if_pos hE, List.get?_set_ne _ _ (fun he => hne he.symm)]
            · rw [if_neg hE]

end Ctre

namespace Ctre

/-- Looking up a state-set member in the id-keyed store. -/
theorem wf_store_get (dfa : Dfa) (hwf : WfDfa dfa) :
    ∀ id ∈ dfa.statesSet.toList, ∃ dd, (id, dd) ∈ dfa.store.toList ∧
      dfa.store.getp hashU32 id = some dd := by
  obtain ⟨hcSt, hkSt, _, _, _, _, hSSst, _⟩ := hwf
  intro sid hid
  obtain ⟨p, hp, hfst⟩ := List.mem_map.mp (hSSst sid hid)
  have hpe : p = (sid, p.2) := by
    obtain ⟨a, b⟩ := p
    obtain rfl : a = sid := hfst
    rfl
  rw [hpe] at hp
  exact ⟨p.2, hp, HMap.getp_eq_of_mem hashU32 dfa.store sid p.2 hcSt hkSt hp⟩

/-- What the `FixedDfa` constructor produces from a well-formed DFA: the
frozen `chs` array is `dfa->chs` in iteration order; the transition table
has `NStates` rows of width `NChars`; the row of state `st` is the
`rowFill` of its transition list over a zero row; the accepting bitmap
row is the state's `is_end`; rows no state owns stay zero. -/
theorem freeze_spec (dfa : Dfa) (hwf : WfDfa dfa) :
    ∃ T A, freeze dfa = some ⟨dfa.chs.toList, T, A⟩ ∧
      T.length = dfa.statesSet.toList.length ∧
      A.length = dfa.statesSet.toList.length ∧
      (∀ r row, T.get? r = some row → row.length = dfa.chs.toList.length) ∧
      (∀ r, (∀ id ∈ dfa.statesSet.toList, ∀ dd,
          dfa.store.getp hashU32 id = some dd → dd.no - 1 ≠ r) →
        T.get? r = (List.replicate dfa.statesSet.toList.length
          (List.replicate dfa.chs.toList.length 0)).get? r ∧
        A.get? r = (List.replicate dfa.statesSet.toList.length false).get? r) ∧
      (∀ id ∈ dfa.statesSet.toList, ∀ dd, dfa.store.getp hashU32 id = some dd →
        T.get? (dd.no - 1) = some (rowFill dfa.store (mkIndexTable dfa.chs.toList)
          (List.replicate dfa.chs.toList.length 0) dd.transitions.toList) ∧
        A.get? (dd.no - 1) = some dd.isEnd) := by
  obtain ⟨hcSt, hkSt, hcSS, hkSS, hcCh, hkCh, hSSst, hstSS, hstProps,
    hnosND, hstart, hstartno, hchsCov, hKle, hNCle⟩ := hwf
  have hKeq : dfa.statesSet.size = dfa.statesSet.toList.length := by
    unfold HSet.size HSet.toList
    rw [hcSS, List.length_map]
  have hNCeq : dfa.chs.size = dfa.chs.toList.length := by
    unfold HSet.size HSet.toList
    rw [hcCh, List.length_map]
  have hNC255 : dfa.chs.toList.length ≤ 255 := hNCle
  have hget := wf_store_get dfa
    ⟨hcSt, hkSt, hcSS, hkSS, hcCh, hkCh, hSSst, hstSS, hstProps,
      hnosND, hstart, hstartno, hchsCov, hKle, hNCle⟩
  have hndids : dfa.statesSet.toList.Nodup := hkSS
  have hrows0 : ∀ r row, (List.replicate dfa.statesSet.toList.length
      (List.replicate dfa.chs.toList.length 0)).get? r = some row →
      row.length = dfa.chs.toList.length := by
    intro r row hr
    have := List.get?_mem hr
    rw [List.eq_of_mem_replicate this, List.length_replicate]
  have hdd0 : ∀ id ∈ dfa.statesSet.toList, ∃ dd,
      dfa.store.getp hashU32 id = some dd ∧ 1 ≤ dd.no ∧
      dd.no - 1 < (List.replicate dfa.statesSet.toList.length
        (List.replicate dfa.chs.toList.length 0)).length ∧
      dd.no - 1 < (List.replicate dfa.statesSet.toList.length false).length ∧
      (∀ p ∈ dd.transitions.toList,
        (dfa.store.getp hashU32 p.2).isSome ∧
        1 ≤ (mkIndexTable dfa.chs.toList).getD (chIdx p.1) 0 ∧
        (mkIndexTable dfa.chs.toList).getD (chIdx p.1) 0 - 1 <
          dfa.chs.toList.length) := by
    intro id hid
    obtain ⟨dd, hmem, hgp⟩ := hget id hid
    obtain ⟨hno1, hnoK, hctr, hktr, htgt⟩ := hstProps (id, dd) hmem
    have hno1' : 1 ≤ dd.no := hno1
    have hnoK' : dd.no ≤ dfa.statesSet.toList.length := hnoK
    refine ⟨dd, hgp, hno1', ?_, ?_, ?_⟩
    · rw [List.length_replicate]; omega
    · rw [List.length_replicate]; omega
    · intro p hp
      obtain ⟨hpc, hps⟩ := htgt p hp
      obtain ⟨ddT, hmemT, hgpT⟩ := hget p.2 hps
      obtain ⟨w, hw, h1w, hwNC⟩ := mkIndexTable_mem dfa.chs.toList p.1 hpc hNC255
      refine ⟨by rw [hgpT]; rfl, ?_, ?_⟩
      · rw [List.getD_eq_get?, hw]; exact h1w
      · rw [List.getD_eq_get?, hw]
        show w - 1 < _
        omega
  have hnos0 : ∀ id ∈ dfa.statesSet.toList, ∀ id' ∈ dfa.statesSet.toList,
      ∀ dd dd', dfa.store.getp hashU32 id = some dd →
      dfa.store.getp hashU32 id' = some dd' → dd.no = dd'.no → id = id' := by
    intro id _ id' _ dd dd' hv hv' he
    have hm := HMap.getp_mem hashU32 _ id dd hv
    have hm' := HMap.getp_mem hashU32 _ id' dd' hv'
    have := List.inj_on_of_nodup_map hnosND hm hm' he
    exact congrArg Prod.fst this
  obtain ⟨T, A, hTA, hTl, hAl, hTrows, hunt, hcont⟩ :=
    fillAll_fold dfa.store (mkIndexTable dfa.chs.toList) dfa.statesSet.toList
      (List.replicate dfa.statesSet.toList.length
        (List.replicate dfa.chs.toList.length 0))
      (List.replicate dfa.statesSet.toList.length false)
      dfa.chs.toList.length hndids hrows0 hdd0 hnos0
  refine ⟨T, A, ?_, by rw [hTl, List.length_replicate],
    by rw [hAl, List.length_replicate], hTrows, hunt, ?_⟩
  · unfold freeze
    rw [if_neg (by omega : ¬ dfa.chs.size < dfa.chs.toList.length)]
    show (fillAll dfa.store
      (mkIndexTable (dfa.chs.toList ++
        List.replicate (dfa.chs.size - dfa.chs.toList.length) 0))
      dfa.statesSet.toList
      (List.replicate dfa.statesSet.size (List.replicate dfa.chs.size 0))
      (List.replicate dfa.statesSet.size false)).map _ = _
    rw [hKeq, hNCeq, Nat.sub_self, List.replicate_zero, List.append_nil, hTA]
    rfl
  · intro id hid dd hdd
    have h2 := hcont id hid dd hdd
    obtain ⟨⟨row, hr0, hrT⟩, hA⟩ := h2
    have hrepl : row = List.replicate dfa.chs.toList.length 0 :=
      List.eq_of_mem_replicate (List.get?_mem hr0)
    subst hrepl
    refine ⟨hrT, ?_⟩
    rw [hA]
    by_cases hE : dd.isEnd
    · rw [if_pos hE, hE]
    · rw [if_neg hE]
      obtain ⟨dd', hgp', _, _, hlta, _⟩ := hdd0 id hid
      obtain rfl : dd' = dd := by rw [hdd] at hgp'; exact (Option.some.inj hgp').symm
      rw [List.length_replicate] at hlta
      rw [get?_replicate_of_lt false hlta]
      have hEf : dd'.isEnd = false := by
        cases hEE : dd'.isEnd
        · rfl
        · exact absurd hEE hE
      rw [hEf]

end Ctre

namespace Ctre

/-- Walking the frozen tables step-for-step simulates walking the
un-frozen DFA's transition maps, provided all accepted bytes and all
input bytes are below the alphabet size 128. -/
theorem specStep_eq_dfa (dfa : Dfa) (hwf : WfDfa dfa)
    (hb : ∀ c ∈ dfa.chs.toList, c < 128) (T : List (List Nat)) (A : List Bool)
    (hcont : ∀ id ∈ dfa.statesSet.toList, ∀ dd,
      dfa.store.getp hashU32 id = some dd →
      T.get? (dd.no - 1) = some (rowFill dfa.store (mkIndexTable dfa.chs.toList)
        (List.replicate dfa.chs.toList.length 0) dd.transitions.toList) ∧
      A.get? (dd.no - 1) = some dd.isEnd) :
    ∀ (s : List Nat), (∀ c ∈ s, c < 128) →
      ∀ id ∈ dfa.statesSet.toList, ∀ dd, dfa.store.getp hashU32 id = some dd →
        specStep ⟨dfa.chs.toList, T, A⟩ (mkIndexTable dfa.chs.toList) s dd.no =
          dfaMatchGo dfa s id := by
  have hwf2 := hwf
  obtain ⟨hcSt, hkSt, hcSS, hkSS, hcCh, hkCh, hSSst, hstSS, hstProps,
    hnosND, hstart, hstartno, hchsCov, hKle, hNCle⟩ := hwf2
  intro s
  induction s with
  | nil =>
    intro _ id hid dd hdd
    have h2 := (hcont id hid dd hdd).2
    simp only [specStep, dfaMatchGo, hdd]
    rw [h2]
    rfl
  | cons c rest ih =>
    intro hcs id hid dd hdd
    have hc : c < 128 := hcs c (by simp)
    have hsp := hstProps (id, dd) (HMap.getp_mem hashU32 dfa.store id dd hdd)
    have hctr : consistent dd.transitions := hsp.2.2.1
    have hktr : keysNodup dd.transitions := hsp.2.2.2.1
    have htgt : ∀ q ∈ dd.transitions.toList,
        q.1 ∈ dfa.chs.toList ∧ q.2 ∈ dfa.statesSet.toList := hsp.2.2.2.2
    have hcolv : ∀ p ∈ dd.transitions.toList,
        (mkIndexTable dfa.chs.toList).getD (chIdx p.1) 0 =
          List.indexOf p.1 dfa.chs.toList + 1 := by
      intro p hp
      have hp1 : p.1 ∈ dfa.chs.toList := (htgt p hp).1
      have hp1lt : p.1 < 128 := hb _ hp1
      rw [chIdx_small hp1lt, List.getD_eq_get?,
        mkIndexTable_get dfa.chs.toList p.1 hp1lt hb hkCh hNCle]
      simp [hp1]
    simp only [specStep, dfaMatchGo, hdd]
    rw [Nat.mod_eq_of_lt hc]
    show ((mkIndexTable dfa.chs.toList).get? c).bind _ = _
    rw [mkIndexTable_get dfa.chs.toList c hc hb hkCh hNCle]
    by_cases hcm : c ∈ dfa.chs.toList
    · simp only [hcm, if_true, Option.some_bind]
      have hjne : ¬ List.indexOf c dfa.chs.toList + 1 = 0 := by omega
      simp only [hjne, if_false]
      have hrowT := (hcont id hid dd hdd).1
      show (T.get? (dd.no - 1)).bind _ = _
      rw [hrowT]
      simp only [Option.some_bind, Nat.add_sub_cancel]
      have hidxlt : List.indexOf c dfa.chs.toList < dfa.chs.toList.length :=
        List.indexOf_lt_length.mpr hcm
      have hinj : ∀ q ∈ dd.transitions.toList, ∀ q' ∈ dd.transitions.toList,
          (mkIndexTable dfa.chs.toList).getD (chIdx q.1) 0 - 1 =
            (mkIndexTable dfa.chs.toList).getD (chIdx q'.1) 0 - 1 → q = q' := by
        intro q hq q' hq' he
        rw [hcolv q hq, hcolv q' hq'] at he
        have hqc : q.1 = q'.1 :=
          (List.indexOf_inj (htgt q hq).1 (htgt q' hq').1).mp (by omega)
        have hmq : (q.1, q.2) ∈ dd.transitions.toList := hq
        have hmq' : (q.1, q'.2) ∈ dd.transitions.toList := by rw [hqc]; exact hq'
        exact Prod.ext hqc (keys_nodup_val_eq hktr hmq hmq')
      cases hg : dd.transitions.getp hashChar c with
      | some tgt =>
        have hment : (c, tgt) ∈ dd.transitions.toList :=
          HMap.getp_mem hashChar _ c tgt hg
        have htgtss : tgt ∈ dfa.statesSet.toList := (htgt (c, tgt) hment).2
        obtain ⟨ddT, hmemT, hgpT⟩ := wf_store_get dfa hwf tgt htgtss
        have hcell := rowFill_get_mem dfa.store (mkIndexTable dfa.chs.toList)
          dd.transitions.toList (List.replicate dfa.chs.toList.length 0)
          (c, tgt) hment (List.Nodup.of_map _ hktr) hinj
          (by rw [hcolv (c, tgt) hment]
              simp only [Nat.add_sub_cancel, List.length_replicate]
              exact hidxlt)
        rw [hcolv (c, tgt) hment] at hcell
        simp only [Nat.add_sub_cancel] at hcell
        rw [hcell, hgpT]
        show (some ((ddT).no)).bind _ = _
        have hT1 : 1 ≤ ddT.no := (hstProps (tgt, ddT) hmemT).1
        have hTne : ¬ ddT.no = 0 := by omega
        simp only [Option.some_bind, hTne, if_false]
        exact ih (fun x hx => hcs x (by simp [hx])) tgt htgtss ddT hgpT
      | none =>
        have hnone : ∀ p ∈ dd.transitions.toList,
            (mkIndexTable dfa.chs.toList).getD (chIdx p.1) 0 - 1 ≠
              List.indexOf c dfa.chs.toList := by
          intro p hp he
          rw [hcolv p hp] at he
          simp only [Nat.add_sub_cancel] at he
          have hpc : p.1 = c :=
            (List.indexOf_inj (htgt p hp).1 hcm).mp he
          have hpm : (c, p.2) ∈ dd.transitions.toList := by rw [← hpc]; exact hp
          have hn0 : dd.transitions.n ≠ 0 := by
            unfold consistent at hctr
            rw [hctr]
            intro hz
            rw [List.length_eq_zero.mp hz] at hpm
            exact List.not_mem_nil _ hpm
          have := HMap.getp_isSome_of_mem hashChar dd.transitions c p.2 hpm hn0
          rw [hg] at this
          cases this
        have hcell := rowFill_get_not_mem dfa.store (mkIndexTable dfa.chs.toList)
          dd.transitions.toList (List.replicate dfa.chs.toList.length 0)
          (List.indexOf c dfa.chs.toList) hnone
        rw [hcell, get?_replicate_of_lt 0 (List.indexOf_lt_length.mpr hcm)]
        simp
    · simp only [hcm, if_false, Option.some_bind, if_pos rfl]
      cases hg : dd.transitions.getp hashChar c with
      | none => simp
      | some tgt =>
        exfalso
        have hmem := HMap.getp_mem hashChar _ c tgt hg
        exact hcm (htgt (c, tgt) hmem).1

end Ctre

namespace Ctre

/-- Every entry of the frozen transition table is 0 or a valid state
number in `[1, NStates]` (no byte-range restriction needed). -/
theorem freeze_cells_range (dfa : Dfa) (hwf : WfDfa dfa)
    (T : List (List Nat)) (A : List Bool)
    (hunt : ∀ r, (∀ id ∈ dfa.statesSet.toList, ∀ dd,
        dfa.store.getp hashU32 id = some dd → dd.no - 1 ≠ r) →
      T.get? r = (List.replicate dfa.statesSet.toList.length
        (List.replicate dfa.chs.toList.length 0)).get? r ∧
      A.get? r = (List.replicate dfa.statesSet.toList.length false).get? r)
    (hcont : ∀ id ∈ dfa.statesSet.toList, ∀ dd,
      dfa.store.getp hashU32 id = some dd →
      T.get? (dd.no - 1) = some (rowFill dfa.store (mkIndexTable dfa.chs.toList)
        (List.replicate dfa.chs.toList.length 0) dd.transitions.toList) ∧
      A.get? (dd.no - 1) = some dd.isEnd) :
    ∀ r row, T.get? r = some row → ∀ w ∈ row,
      w = 0 ∨ (1 ≤ w ∧ w ≤ dfa.statesSet.toList.length) := by
  have hwf2 := hwf
  obtain ⟨hcSt, hkSt, hcSS, hkSS, hcCh, hkCh, hSSst, hstSS, hstProps, _⟩ := hwf2
  intro r row hr w hw
  by_cases hex : ∃ id ∈ dfa.statesSet.toList, ∃ dd,
      dfa.store.getp hashU32 id = some dd ∧ dd.no - 1 = r
  · obtain ⟨id, hid, dd, hdd, hrq⟩ := hex
    have hc := (hcont id hid dd hdd).1
    rw [hrq, hr] at hc
    obtain rfl : row = rowFill dfa.store (mkIndexTable dfa.chs.toList)
        (List.replicate dfa.chs.toList.length 0) dd.transitions.toList :=
      Option.some.inj hc
    have hsp := hstProps (id, dd) (HMap.getp_mem hashU32 dfa.store id dd hdd)
    refine rowFill_range dfa.store (mkIndexTable dfa.chs.toList)
      (fun w => w = 0 ∨ (1 ≤ w ∧ w ≤ dfa.statesSet.toList.length))
      dd.transitions.toList (List.replicate dfa.chs.toList.length 0)
      (fun w hw0 => Or.inl (List.eq_of_mem_replicate hw0)) ?_ w hw
    intro p hp
    have hps : p.2 ∈ dfa.statesSet.toList := (hsp.2.2.2.2 p hp).2
    obtain ⟨ddT, hmemT, hgpT⟩ := wf_store_get dfa hwf p.2 hps
    rw [hgpT]
    have hspT := hstProps (p.2, ddT) hmemT
    have h1 : 1 ≤ ddT.no := hspT.1
    have h2 : ddT.no ≤ dfa.statesSet.toList.length := hspT.2.1
    exact Or.inr ⟨h1, h2⟩
  · push_neg at hex
    have h2 := (hunt r (fun id hid dd hdd => hex id hid dd hdd)).1
    rw [hr] at h2
    have hrow : row ∈ List.replicate dfa.statesSet.toList.length
        (List.replicate dfa.chs.toList.length 0) := List.get?_mem h2.symm
    rw [List.eq_of_mem_replicate hrow] at hw
    exact Or.inl (List.eq_of_mem_replicate hw)

/-- The spec's table walk never goes out of bounds: arbitrary input bytes,
any state counter in `[1, NStates]`. -/
theorem specStep_total (dfa : Dfa) (hwf : WfDfa dfa)
    (T : List (List Nat)) (A : List Bool)
    (hTl : T.length = dfa.statesSet.toList.length)
    (hAl : A.length = dfa.statesSet.toList.length)
    (hTrows : ∀ r row, T.get? r = some row → row.length = dfa.chs.toList.length)
    (hcells : ∀ r row, T.get? r = some row → ∀ w ∈ row,
      w = 0 ∨ (1 ≤ w ∧ w ≤ dfa.statesSet.toList.length)) :
    ∀ (s : List Nat) (st : Nat), 1 ≤ st → st ≤ dfa.statesSet.toList.length →
      (specStep ⟨dfa.chs.toList, T, A⟩ (mkIndexTable dfa.chs.toList) s st).isSome := by
  have hNCle : dfa.chs.toList.length ≤ 255 :=
    hwf.2.2.2.2.2.2.2.2.2.2.2.2.2.2
  intro s
  induction s with
  | nil =>
    intro st h1 h2
    have hlt : st - 1 < A.length := by omega
    simp only [specStep]
    rw [List.get?_eq_get hlt]
    rfl
  | cons c rest ih =>
    intro st h1 h2
    have hmlt : c % 128 < (mkIndexTable dfa.chs.toList).length := by
      rw [mkIndexTable_length]
      exact Nat.mod_lt _ (by norm_num)
    simp only [specStep]
    rw [List.get?_eq_get hmlt]
    set j := (mkIndexTable dfa.chs.toList).get ⟨c % 128, hmlt⟩ with hjdef
    have hjget : (mkIndexTable dfa.chs.toList).get? (c % 128) = some j :=
      List.get?_eq_get hmlt
    simp only [Option.some_bind]
    by_cases hj0 : j = 0
    · simp [hj0]
    · simp only [hj0, if_false]
      have hjr := mkIndexTable_range dfa.chs.toList hNCle (c % 128) j hjget
      have hjb : 1 ≤ j ∧ j ≤ dfa.chs.toList.length := by
        rcases hjr with h | h
        · exact absurd h hj0
        · exact h
      have hstlt : st - 1 < T.length := by omega
      rw [List.get?_eq_get hstlt]
      set row := T.get ⟨st - 1, hstlt⟩ with hrowdef
      have hrowget : T.get? (st - 1) = some row := List.get?_eq_get hstlt
      have hrlen : row.length = dfa.chs.toList.length := hTrows _ _ hrowget
      have hclt : j - 1 < row.length := by omega
      simp only [Option.some_bind]
      rw [List.get?_eq_get hclt]
      set tgt := row.get ⟨j - 1, hclt⟩ with htgtdef
      have htgtmem : tgt ∈ row := List.get_mem row (j - 1) hclt
      have htgtr := hcells _ _ hrowget tgt htgtmem
      simp only [Option.some_bind]
      by_cases ht0 : tgt = 0
      · simp [ht0]
      · simp only [ht0, if_false]
        rcases htgtr with h | h
        · exact absurd h ht0
        · exact ih tgt h.1 h.2

end Ctre

namespace Ctre

/-! # Claims -/

/-- C1: For every compiled table set and every input string,
`FixedDfa::Match` computes its result exactly by the table algorithm of
the spec: the state counter `st` starts at 1; for each input byte `ch` it
looks up `j = index_table[ch mod A]` and rejects if `j = 0`, otherwise
looks up `to = transitions[st-1][j-1]` and rejects if `to = 0`, otherwise
sets `st = to`; if every byte is consumed without rejecting, the result
is true iff `accept[st-1]`. -/
theorem c1_match_follows_spec_algorithm (tbl : FrozenTables) (s : List Nat) :
    fixedMatch tbl s = specMatch tbl s :=
  fixedMatch_eq_specMatch tbl s

/-- C2: Compiling the empty pattern yields a matcher that accepts exactly
the empty string: `Match` returns true on the empty input and false on
every non-empty input.  (The frozen artifact of the empty pattern is one
accepting state, no accepted characters.) -/
theorem c2_empty_pattern_matches_only_empty :
    compileFixed [] = some ⟨[], [[]], [true]⟩ ∧
    ∀ s : List Nat, fixedMatch ⟨[], [[]], [true]⟩ s = some s.isEmpty := by
  refine ⟨by decide, ?_⟩
  intro s
  cases s with
  | nil => decide
  | cons c s' =>
    show ((matchLoop ⟨[], [[]], [true]⟩ (mkIndexTable []) (c :: s') 1).bind _) = _
    simp only [matchLoop]
    rw [show (mkIndexTable [] : List Nat) = List.replicate 128 0 from rfl,
      get?_replicate_of_lt 0 (chIdx_lt c)]
    simp

/-- C3 counterexample: the pattern consisting of the single byte
`0xe1 = 225` has accepted bytes pairwise distinct modulo 128 (a
singleton) and the input `[97]` lies in `[0, 128)`, yet the un-frozen
`Dfa::Match` rejects `[97]` while the frozen `FixedDfa::Match` accepts
it: freezing folds byte 225 into index-table slot `225 mod 128 = 97`, so
input byte 97 aliases onto the transition labelled 225. -/
theorem c3_frozen_differs_from_dfa :
    (compileDfa [225]).bind (fun d => dfaMatch d [97]) = some false ∧
    (compileFixed [225]).bind (fun t => fixedMatch t [97]) = some true := by
  exact ⟨by decide, by decide⟩

/-- C3 (amended): the freezing step preserves `Dfa::Match` when every
*accepted byte* of the DFA lies in `[0, A)` (hence the accepted bytes are
trivially pairwise distinct mod `A = 128`) and every input byte lies in
`[0, A)`; the original claim's hypothesis allowed accepted bytes ≥ A,
which the counterexample refutes. -/
theorem c3_freeze_preserves_match_below_alphabet (dfa : Dfa) (tbl : FrozenTables)
    (hwf : WfDfa dfa) (hb : ∀ c ∈ dfa.chs.toList, c < 128)
    (hfz : freeze dfa = some tbl) (s : List Nat) (hs : ∀ c ∈ s, c < 128) :
    fixedMatch tbl s = dfaMatch dfa s := by
  obtain ⟨T, A, hfs, hTl, hAl, hTrows, hunt, hcont⟩ := freeze_spec dfa hwf
  obtain rfl : tbl = ⟨dfa.chs.toList, T, A⟩ := by
    rw [hfz] at hfs
    exact Option.some.inj hfs
  rw [fixedMatch_eq_specMatch]
  have hwf2 := hwf
  obtain ⟨_, _, _, _, _, _, _, _, _, _, hstart, hstartno, _⟩ := hwf2
  obtain ⟨dd0, hmem0, hgp0⟩ := wf_store_get dfa hwf dfa.start hstart
  have hno0 : dd0.no = 1 := hstartno (dfa.start, dd0) hmem0 rfl
  show specStep _ (mkIndexTable dfa.chs.toList) s 1 = dfaMatchGo dfa s dfa.start
  rw [← hno0]
  exact specStep_eq_dfa dfa hwf hb T A hcont s hs dfa.start hstart dd0 hgp0

theorem c3_witness :
    WfDfa dfaAB ∧ fixedMatch tblAB (strBytes "ab") = dfaMatch dfaAB (strBytes "ab") :=
  ⟨by decide, c3_freeze_preserves_match_below_alphabet dfaAB tblAB (by decide)
    (by decide) (by decide) (strBytes "ab") (by decide)⟩

/-- C4: for every frozen artifact of a (well-formed) compiled DFA and
every input string over arbitrary bytes — including bytes ≥ 0x80 —
matching is total: every table access is in bounds, so the checked-access
matcher returns `some` boolean; a lookup miss (`j = 0` or `to = 0`) is
the reject outcome `some false`, not a failure. -/
theorem c4_match_never_fails (dfa : Dfa) (tbl : FrozenTables)
    (hwf : WfDfa dfa) (hfz : freeze dfa = some tbl) (s : List Nat) :
    (fixedMatch tbl s).isSome := by
  obtain ⟨T, A, hfs, hTl, hAl, hTrows, hunt, hcont⟩ := freeze_spec dfa hwf
  obtain rfl : tbl = ⟨dfa.chs.toList, T, A⟩ := by
    rw [hfz] at hfs
    exact Option.some.inj hfs
  rw [fixedMatch_eq_specMatch]
  have hcells := freeze_cells_range dfa hwf T A hunt hcont
  have hwf2 := hwf
  obtain ⟨_, _, _, _, _, _, _, _, _, _, hstart, _⟩ := hwf2
  have hK1 : 1 ≤ dfa.statesSet.toList.length := List.length_pos_of_mem hstart
  exact specStep_total dfa hwf T A hTl hAl hTrows hcells s 1 (le_refl 1) hK1

theorem c4_witness :
    WfDfa dfaAB ∧ (fixedMatch tblAB [200, 97, 250]).isSome :=
  ⟨by decide, c4_match_never_fails dfaAB tblAB (by decide) (by decide) [200, 97, 250]⟩

/-- C5 counterexample: the pattern `(a` has an unbalanced `(`, yet
construction does not abort: it completes and produces a usable frozen
matcher which accepts the string `a` (the dangling `(` is silently
discarded by `Calc`'s default case). -/
theorem c5_malformed_pattern_not_detected :
    (compileFixed (strBytes "(a")).bind (fun t => fixedMatch t (strBytes "a"))
      = some true := by
  decide

/-- C5 (amended): malformed patterns are only partially detected.  An
unmatched `)` aborts construction (the `op_stack.pop()` underflows, UB at
`constexpr` time, modelled `none`); but an unbalanced `(` and an
unterminated `[` are not detected: parsing completes and freezes into a
usable matcher (`(a` behaves like `a`; `[a` collects no range pairs and
behaves like the empty class, accepting exactly the empty string). -/
theorem c5_only_unmatched_rparen_aborts :
    parse (strBytes ")") = none ∧
    (compileFixed (strBytes "(a")).bind (fun t => fixedMatch t (strBytes "a"))
      = some true ∧
    (compileFixed (strBytes "[a")).bind (fun t => fixedMatch t []) = some true ∧
    (compileFixed (strBytes "[a")).bind (fun t => fixedMatch t (strBytes "a"))
      = some false := by
  exact ⟨by decide, by decide, by decide, by decide⟩

/-- C6 counterexample: push 1 into a fresh queue, pop it, push 1 again:
the claim says the second push must still return false (membership never
pruned), but it returns true — `pop()` removes the value from the set. -/
theorem c6_repush_after_pop_succeeds :
    ((UQueue.empty.push hashU32 1).1.pop hashU32).map
      (fun p => (p.2.push hashU32 1).2) = some true := by
  decide

/-- C6 (amended): `push(v)` is a no-op returning false exactly when `v`
is *currently* in the queue's membership set; `pop()` removes the popped
value from the set (clearing every slot that holds it), so after a value
is pushed and popped, a second push re-enqueues it and returns true. -/
theorem c6_push_iff_and_pop_prunes (h : Nat → Nat) (q : UQueue) (v : Nat) :
    ((q.push h v).2 = !(q.s.has h v)) ∧
    (q.s.has h v = true → (q.push h v).1 = q) ∧
    (∀ w q', q.pop h = some (w, q') → q'.s.has h w = false) := by
  refine ⟨?_, ?_, ?_⟩
  · unfold UQueue.push
    cases hh : q.s.has h v <;> rfl
  · intro hh
    unfold UQueue.push
    rw [if_pos hh]
  · intro w q' hpop
    unfold UQueue.pop at hpop
    by_cases he : q.isEmpty
    · rw [if_pos he] at hpop
      cases hpop
    · rw [if_neg he] at hpop
      cases hq : q.elems with
      | nil => rw [hq] at hpop; cases hpop
      | cons x rest =>
        rw [hq] at hpop
        have hpair := Option.some.inj hpop
        have hx : x = w := congrArg Prod.fst hpair
        have hq2 : (⟨rest, q.s.pop h x⟩ : UQueue) = q' := congrArg Prod.snd hpair
        rw [← hq2, hx]
        exact HSet.has_pop_self h h q.s w

theorem c6_witness :
    ((uqDemo.push hashU32 5).1 = uqDemo) ∧
    ((⟨[], uqDemo.s.pop hashU32 5⟩ : UQueue).s.has hashU32 5 = false) :=
  ⟨(c6_push_iff_and_pop_prunes hashU32 uqDemo 5).2.1 (by decide),
   (c6_push_iff_and_pop_prunes hashU32 uqDemo 5).2.2 5
     ⟨[], uqDemo.s.pop hashU32 5⟩ (by decide)⟩

end Ctre

namespace Ctre

/-- C7 counterexample: the pattern `a|σ` with `σ` = byte `0xe1 = 225`
accepts two distinct bytes 97 and 225 that collide modulo the alphabet
size (`225 mod 128 = 97`), yet freezing completes without any abort —
both bytes land in `chs` and silently share index-table slot 97. -/
theorem c7_collision_not_detected :
    (compileFixed [97, 124, 225]).isSome = true ∧
    (compileFixed [97, 124, 225]).map (fun t => t.chs) = some [225, 97] := by
  exact ⟨by decide, by decide⟩

/-- C7 (amended): there is no overflow detection at freezing time at all —
freezing a well-formed built DFA always succeeds, whether or not accepted
bytes lie below `A` or collide modulo `A`; colliding bytes alias to one
index-table slot (the byte written later in `chs` iteration order wins). -/
theorem c7_freeze_always_succeeds (dfa : Dfa) (hwf : WfDfa dfa) :
    (freeze dfa).isSome := by
  obtain ⟨T, A, hfs, _⟩ := freeze_spec dfa hwf
  rw [hfs]
  rfl

theorem c7_witness : WfDfa dfaCollide ∧ (freeze dfaCollide).isSome :=
  ⟨by decide, c7_freeze_always_succeeds dfaCollide (by decide)⟩

/-- C8: the frozen-table invariants of a compiled (well-formed) DFA: the
start state is numbered 1; every state number is ≥ 1, so 0 is reserved
for "no transition" and is never a valid state number; `chs` contains
each accepted byte (a byte labelling some transition) exactly once; and
every nonzero transition-table entry `t` satisfies `1 ≤ t ≤ NStates`. -/
theorem c8_frozen_table_invariants (dfa : Dfa) (tbl : FrozenTables)
    (hwf : WfDfa dfa) (hfz : freeze dfa = some tbl) :
    (∃ dd, dfa.store.getp hashU32 dfa.start = some dd ∧ dd.no = 1) ∧
    (∀ id ∈ dfa.statesSet.toList, ∀ dd,
      dfa.store.getp hashU32 id = some dd → 1 ≤ dd.no) ∧
    tbl.chs.Nodup ∧
    (∀ b, b ∈ tbl.chs ↔
      ∃ p ∈ dfa.store.toList, b ∈ p.2.transitions.toList.map Prod.fst) ∧
    tbl.transitions.length = dfa.statesSet.toList.length ∧
    (∀ row ∈ tbl.transitions, ∀ e ∈ row,
      e = 0 ∨ (1 ≤ e ∧ e ≤ tbl.transitions.length)) := by
  obtain ⟨T, A, hfs, hTl, hAl, hTrows, hunt, hcont⟩ := freeze_spec dfa hwf
  obtain rfl : tbl = ⟨dfa.chs.toList, T, A⟩ := by
    rw [hfz] at hfs
    exact Option.some.inj hfs
  have hwf2 := hwf
  obtain ⟨hcSt, hkSt, hcSS, hkSS, hcCh, hkCh, hSSst, hstSS, hstProps,
    hnosND, hstart, hstartno, hchsCov, hKle, hNCle⟩ := hwf2
  have hcells := freeze_cells_range dfa hwf T A hunt hcont
  refine ⟨?_, ?_, hkCh, ?_, hTl, ?_⟩
  · obtain ⟨dd0, hmem0, hgp0⟩ := wf_store_get dfa hwf dfa.start hstart
    exact ⟨dd0, hgp0, hstartno (dfa.start, dd0) hmem0 rfl⟩
  · intro id hid dd hdd
    exact (hstProps (id, dd) (HMap.getp_mem hashU32 dfa.store id dd hdd)).1
  · intro b
    constructor
    · exact fun hb => hchsCov b hb
    · rintro ⟨p, hp, hb⟩
      obtain ⟨q, hq, hqb⟩ := List.mem_map.mp hb
      have := (hstProps p hp).2.2.2.2 q hq
      rw [← hqb]
      exact this.1
  · intro row hrow e he
    obtain ⟨r, hr⟩ := List.mem_iff_get?.mp hrow
    rcases hcells r row hr e he with h | h
    · exact Or.inl h
    · exact Or.inr ⟨h.1, by rw [hTl]; exact h.2⟩

theorem c8_witness : tblAB.chs.Nodup :=
  (c8_frozen_table_invariants dfaAB tblAB (by decide) (by decide)).2.2.1

/-- C9: `NfaState::AddTransition(c, to)` unconditionally leaves the
source state non-accepting, so a state is accepting only if no outgoing
transition was added after it was marked accepting; in particular, after
`Concat(A, B)` (which adds `A.end --ε--> B.start`) the state `A.end` is
non-accepting. -/
theorem c9_add_transition_clears_accepting :
    (∀ (st : NfaStateData) (c tgt : Nat), (st.addTransition c tgt).isEnd = false) ∧
    (∀ (ps : PSt) (a b : Frag), a.endId - 1 < ps.states.length →
      (((ps.newNfaFromConcat a b).1.states).getD (a.endId - 1) default).isEnd
        = false) := by
  have h1 : ∀ (st : NfaStateData) (c tgt : Nat),
      (st.addTransition c tgt).isEnd = false := by
    intro st c tgt
    unfold NfaStateData.addTransition
    cases hE : st.isEnd
    · simp [hE]
    · simp [hE]
  refine ⟨h1, ?_⟩
  intro ps a b hlt
  unfold PSt.newNfaFromConcat PSt.addTransition
  simp only [List.getD_eq_get?, List.get?_set, if_pos rfl]
  rw [List.get?_eq_get hlt]
  simp only [Option.map_some, Option.getD_some]
  exact h1 _ _ _

theorem c9_witness :
    (((psA.newNfaFromConcat ⟨1, 2, 2⟩ ⟨3, 4, 2⟩).1.states).getD
      ((⟨1, 2, 2⟩ : Frag).endId - 1) default).isEnd = false :=
  c9_add_transition_clears_accepting.2 psA ⟨1, 2, 2⟩ ⟨3, 4, 2⟩ (by decide)

/-- C10 (failing input): union commutativity fails on the engine.  With
`A` the subpattern `bx` (bytes `[98, 120]`) and `B` the subpattern
`σy` (bytes `[226, 121]`, `σ = 0xe2` and `226 ≡ 98 (mod 128)`), matching
the input `σy` against `A|B` yields true but against `B|A` yields false:
the two colliding first bytes share one index-table slot, and which
transition survives in the shared column depends on the branch order, so
`B|A` fails to match `B`'s own branch.  The spec's §8 law
`Match(A|B, s) = Match(B|A, s)` is violated. -/
theorem c10_union_not_commutative :
    ctreMatch [98, 120, 124, 226, 121] [226, 121] = some true ∧
    ctreMatch [226, 121, 124, 98, 120] [226, 121] = some false := by
  exact ⟨by decide, by decide⟩

end Ctre
